import Mathlib

/-!
Shallow embedding of the `bin-file` library (index/file module and
`lib/struct.js`) and proofs about its struct write/read executors.

Modelling conventions:
* Bytes are `Nat` values (< 256 for everything the encoders produce);
  the backing file is a `List Nat` indexed from byte 0.
* Machine arithmetic follows Node's `Buffer` semantics: fixed-width
  integer codecs support widths 1..6 and raise `RangeError` outside the
  representable range, exactly as `buffer.writeUIntBE` & co. do.
* Callback plumbing: `makeCallback` in the source re-`throw`s any error
  instead of forwarding it to the wrapped callback, so every failing
  store operation surfaces as a thrown exception and the executors'
  `if (err) return cb(err)` branches are unreachable.  We model a thrown
  exception as `Except.error` at the file layer and as a `thrown`
  outcome (user callback never invoked) at the executor layer.
* Failure injection: real `fs` calls can fail (closed fd, EIO, ...).
  The store carries a list of write/read call indices that are made to
  fail, plus call counters, so that partial-failure behaviour can be
  stated.  Short reads (requests crossing end-of-file) are modelled as
  I/O errors, the fatal-short-read adapter policy of the spec; no claim
  exercises them.
-/

namespace BinFile

/-- JS error kinds relevant to the library: I/O failures from `fs`,
`RangeError` from Node `Buffer` codecs, and the strict-mode
`ReferenceError` raised by the undeclared `str` in `readBufferLen*`. -/
inductive Err
  | ioError
  | rangeError
  | refError
deriving DecidableEq, Repr

/-- A decoded JS value as produced by the read struct executor. -/
inductive Value
  | int (n : Int)
  | str (s : String)
  | bytes (bs : List Nat)
deriving DecidableEq, Repr

/-- The byte store: file contents plus failure-injection instrumentation.
`writeCalls`/`readCalls` count completed positional calls; a call whose
index is listed in `failWriteOn`/`failReadOn` fails with an I/O error. -/
structure Store where
  mem : List Nat
  writeCalls : Nat
  failWriteOn : List Nat
  readCalls : Nat
  failReadOn : List Nat
deriving DecidableEq, Repr

/-- A store with given contents and no injected failures. -/
def Store.clean (mem : List Nat) : Store :=
  ⟨mem, 0, [], 0, []⟩

/-- Overwrite `data` into `mem` at byte offset `pos`, zero-filling any gap
beyond the current end of file (the semantics of positional `fs.write`);
a zero-length write leaves the file untouched. -/
def writeBytes (mem : List Nat) (pos : Nat) (data : List Nat) : List Nat :=
  if data.isEmpty then mem
  else mem.take pos ++ List.replicate (pos - mem.length) 0 ++ data ++ mem.drop (pos + data.length)

/-- Positional write (`fs.write(fd, data, 0, data.length, pos)`): on
success reports `data.length` bytes written. -/
def Store.writeAt (s : Store) (data : List Nat) (pos : Nat) : Except Err (Store × Nat) :=
  if s.writeCalls ∈ s.failWriteOn then .error .ioError
  else .ok ({ s with mem := writeBytes s.mem pos data, writeCalls := s.writeCalls + 1 },
            data.length)

/-- Positional read (`fs.read(fd, buffer, 0, len, pos)`): returns the `len`
bytes at `pos` and `bytesRead = len`.  A read crossing end-of-file is
modelled as an I/O error (fatal-short-read adapter policy); a zero-length
read always succeeds. -/
def Store.readAt (s : Store) (pos len : Nat) : Except Err (Store × List Nat × Nat) :=
  if s.readCalls ∈ s.failReadOn then .error .ioError
  else if len = 0 ∨ pos + len ≤ s.mem.length then
    .ok ({ s with readCalls := s.readCalls + 1 }, ((s.mem.drop pos).take len, len))
  else .error .ioError

/-! ### Fixed-width integer codecs (Node `Buffer` semantics) -/

/-- Big-endian bytes of `v`, `len` bytes, most significant first. -/
def bytesBE (v : Nat) : Nat → List Nat
  | 0 => []
  | len + 1 => bytesBE (v / 256) len ++ [v % 256]

/-- Little-endian bytes of `v`, `len` bytes, least significant first. -/
def bytesLE (v : Nat) : Nat → List Nat
  | 0 => []
  | len + 1 => v % 256 :: bytesLE (v / 256) len

/-- Decode an unsigned big-endian byte list. -/
def decUIntBE (bs : List Nat) : Nat :=
  bs.foldl (fun acc b => acc * 256 + b) 0

/-- Decode an unsigned little-endian byte list. -/
def decUIntLE (bs : List Nat) : Nat :=
  bs.foldr (fun b acc => acc * 256 + b) 0

/-- Reinterpret an unsigned `len`-byte value as two's-complement signed. -/
def toSigned (u : Nat) (len : Nat) : Int :=
  if u < 2 ^ (8 * len - 1) then (u : Int) else (u : Int) - 2 ^ (8 * len)

/-- `buffer.writeUIntBE(value, 0, len)`: requires `len ∈ [1,6]` and
`0 ≤ value < 2^(8·len)`, otherwise `RangeError`. -/
def encUIntBE (value : Int) (len : Nat) : Except Err (List Nat) :=
  if 1 ≤ len ∧ len ≤ 6 ∧ 0 ≤ value ∧ value < 2 ^ (8 * len) then
    .ok (bytesBE value.toNat len)
  else .error .rangeError

/-- `buffer.writeUIntLE(value, 0, len)`. -/
def encUIntLE (value : Int) (len : Nat) : Except Err (List Nat) :=
  if 1 ≤ len ∧ len ≤ 6 ∧ 0 ≤ value ∧ value < 2 ^ (8 * len) then
    .ok (bytesLE value.toNat len)
  else .error .rangeError

/-- `buffer.writeIntBE(value, 0, len)`: requires `len ∈ [1,6]` and
`-2^(8·len-1) ≤ value < 2^(8·len-1)`; stores two's complement. -/
def encIntBE (value : Int) (len : Nat) : Except Err (List Nat) :=
  if 1 ≤ len ∧ len ≤ 6 ∧ -(2 ^ (8 * len - 1)) ≤ value ∧ value < 2 ^ (8 * len - 1) then
    .ok (bytesBE (value % (2 ^ (8 * len))).toNat len)
  else .error .rangeError

/-- `buffer.writeIntLE(value, 0, len)`. -/
def encIntLE (value : Int) (len : Nat) : Except Err (List Nat) :=
  if 1 ≤ len ∧ len ≤ 6 ∧ -(2 ^ (8 * len - 1)) ≤ value ∧ value < 2 ^ (8 * len - 1) then
    .ok (bytesLE (value % (2 ^ (8 * len))).toNat len)
  else .error .rangeError

/-- `data.readUIntBE(0, len)`: requires `len ∈ [1,6]` and
`len ≤ data.length`, otherwise `RangeError`. -/
def bufReadUIntBE (data : List Nat) (len : Nat) : Except Err Nat :=
  if 1 ≤ len ∧ len ≤ 6 ∧ len ≤ data.length then .ok (decUIntBE (data.take len))
  else .error .rangeError

/-- `data.readUIntLE(0, len)`. -/
def bufReadUIntLE (data : List Nat) (len : Nat) : Except Err Nat :=
  if 1 ≤ len ∧ len ≤ 6 ∧ len ≤ data.length then .ok (decUIntLE (data.take len))
  else .error .rangeError

/-- `data.readIntBE(0, len)`. -/
def bufReadIntBE (data : List Nat) (len : Nat) : Except Err Int :=
  if 1 ≤ len ∧ len ≤ 6 ∧ len ≤ data.length then .ok (toSigned (decUIntBE (data.take len)) len)
  else .error .rangeError

/-- `data.readIntLE(0, len)`. -/
def bufReadIntLE (data : List Nat) (len : Nat) : Except Err Int :=
  if 1 ≤ len ∧ len ≤ 6 ∧ len ≤ data.length then .ok (toSigned (decUIntLE (data.take len)) len)
  else .error .rangeError

/-! ### Text codec (UTF-8, the encoding used by Node `Buffer`/`toString`) -/

/-- UTF-8 encoding of a single code point (the standard 1–4 byte scheme
used by `new Buffer(str)` / `buffer.write(str)`). -/
def utf8EncodeCharNat (n : Nat) : List Nat :=
  if n < 0x80 then [n]
  else if n < 0x800 then [0xC0 + n / 64, 0x80 + n % 64]
  else if n < 0x10000 then [0xE0 + n / 4096, 0x80 + (n / 64) % 64, 0x80 + n % 64]
  else [0xF0 + n / 262144, 0x80 + (n / 4096) % 64, 0x80 + (n / 64) % 64, 0x80 + n % 64]

/-- UTF-8 encoding of a string (`Buffer.byteLength`, `new Buffer(str)`). -/
def encodeString (s : String) : List Nat :=
  (s.data.map (fun c => utf8EncodeCharNat c.toNat)).flatten

/-- Decode one UTF-8-encoded code point from the front of a byte list;
`none` if the head is malformed (or the list is empty).  The decoder is
permissive (no overlong/surrogate rejection): the claims only ever
decode byte lists produced by the encoder, on which it agrees with
Node's decoder. -/
def utf8DecodeOne : List Nat → Option (Nat × List Nat)
  | [] => none
  | b0 :: bs =>
    if b0 < 0x80 then some (b0, bs)
    else if b0 < 0xC0 then none
    else if b0 < 0xE0 then
      match bs with
      | b1 :: bs1 =>
        if b1 / 64 = 2 then some ((b0 - 0xC0) * 64 + (b1 - 0x80), bs1) else none
      | [] => none
    else if b0 < 0xF0 then
      match bs with
      | b1 :: b2 :: bs1 =>
        if b1 / 64 = 2 ∧ b2 / 64 = 2 then
          some ((b0 - 0xE0) * 4096 + (b1 - 0x80) * 64 + (b2 - 0x80), bs1)
        else none
      | _ => none
    else if b0 < 0xF8 then
      match bs with
      | b1 :: b2 :: b3 :: bs1 =>
        if b1 / 64 = 2 ∧ b2 / 64 = 2 ∧ b3 / 64 = 2 then
          some ((b0 - 0xF0) * 262144 + (b1 - 0x80) * 4096 + (b2 - 0x80) * 64 + (b3 - 0x80), bs1)
        else none
      | _ => none
    else none

theorem utf8DecodeOne_length (bs : List Nat) (n : Nat) (rest : List Nat)
    (h : utf8DecodeOne bs = some (n, rest)) : rest.length < bs.length := by
  cases bs with
  | nil => simp [utf8DecodeOne] at h
  | cons b0 tl =>
    simp only [utf8DecodeOne] at h
    repeat' split at h
    all_goals
      first
      | exact Option.noConfusion h
      | (simp only [Option.some.injEq, Prod.mk.injEq] at h
         obtain ⟨h1, h2⟩ := h
         subst h2
         simp only [List.length_cons]
         omega)

/-- Fuelled UTF-8 decode driver; the fuel only bounds recursion depth
(one unit per decoded code point) and is immaterial whenever it is at
least the list length. -/
def utf8DecAux : Nat → List Nat → Option (List Nat)
  | _, [] => some []
  | 0, _ :: _ => none
  | fuel + 1, b0 :: bs =>
    match utf8DecodeOne (b0 :: bs) with
    | some (n, rest) => (utf8DecAux fuel rest).map (n :: ·)
    | none => none

/-- UTF-8 decoding to a list of code points; `none` on a malformed
sequence. -/
def utf8Dec (bs : List Nat) : Option (List Nat) :=
  utf8DecAux bs.length bs

/-- `data.toString()`: UTF-8 decode.  Malformed input is modelled
coarsely as the empty string (Node substitutes replacement characters;
no claim decodes malformed bytes). -/
def decodeString (bs : List Nat) : String :=
  match utf8Dec bs with
  | some ns => ⟨ns.map Char.ofNat⟩
  | none => ""

/-! ### The `File` layer (positional typed reads/writes over the store).

Because `makeCallback` rethrows errors at the innermost wrapper, every
nested `if (err) return cb(err)` in these methods is dead code; error
propagation collapses to `Except` bind. -/

/-- `File.prototype.read`. -/
def File.read (s : Store) (pos len : Nat) : Except Err (Store × List Nat × Nat) :=
  Store.readAt s pos len

/-- `File.prototype.readString`: read then `data.toString()`. -/
def File.readString (s : Store) (pos len : Nat) : Except Err (Store × String × Nat) := do
  let (s1, data, br) ← File.read s pos len
  pure (s1, decodeString data, br)

/-- `File.prototype.readUIntBE`. -/
def File.readUIntBE (s : Store) (pos len : Nat) : Except Err (Store × Nat × Nat) := do
  let (s1, data, br) ← File.read s pos len
  let v ← bufReadUIntBE data len
  pure (s1, v, br)

/-- `File.prototype.readUIntLE`. -/
def File.readUIntLE (s : Store) (pos len : Nat) : Except Err (Store × Nat × Nat) := do
  let (s1, data, br) ← File.read s pos len
  let v ← bufReadUIntLE data len
  pure (s1, v, br)

/-- `File.prototype.readIntBE`. -/
def File.readIntBE (s : Store) (pos len : Nat) : Except Err (Store × Int × Nat) := do
  let (s1, data, br) ← File.read s pos len
  let v ← bufReadIntBE data len
  pure (s1, v, br)

/-- `File.prototype.readIntLE`. -/
def File.readIntLE (s : Store) (pos len : Nat) : Except Err (Store × Int × Nat) := do
  let (s1, data, br) ← File.read s pos len
  let v ← bufReadIntLE data len
  pure (s1, v, br)

/-- `File.prototype.readStringLenBE`: decode the big-endian length prefix
at `pos`, then read that many payload bytes right after it; consumed
bytes are `lenBytesRead + strBytesRead`. -/
def File.readStringLenBE (s : Store) (pos len_size : Nat) : Except Err (Store × String × Nat) := do
  let (s1, len, lenBR) ← File.readUIntBE s pos len_size
  let (s2, str, strBR) ← File.readString s1 (pos + lenBR) len
  pure (s2, str, lenBR + strBR)

/-- `File.prototype.readStringLenLE`. -/
def File.readStringLenLE (s : Store) (pos len_size : Nat) : Except Err (Store × String × Nat) := do
  let (s1, len, lenBR) ← File.readUIntLE s pos len_size
  let (s2, str, strBR) ← File.readString s1 (pos + lenBR) len
  pure (s2, str, lenBR + strBR)

/-- `File.prototype.readBufferLenBE` — the source defect: after both reads
succeed the callback forwards the undeclared variable `str`
(`cb(err, str, lenBytesRead + dataBytesRead)`), which in strict mode
raises a `ReferenceError`; the just-read payload `data` is dropped. -/
def File.readBufferLenBE (s : Store) (pos len_size : Nat) : Except Err (Store × Value × Nat) := do
  let (s1, len, lenBR) ← File.readUIntBE s pos len_size
  let (_s2, _data, _dataBR) ← File.read s1 (pos + lenBR) len
  .error .refError

/-- `File.prototype.readBufferLenLE` — same defect as the BE variant. -/
def File.readBufferLenLE (s : Store) (pos len_size : Nat) : Except Err (Store × Value × Nat) := do
  let (s1, len, lenBR) ← File.readUIntLE s pos len_size
  let (_s2, _data, _dataBR) ← File.read s1 (pos + lenBR) len
  .error .refError

/-- `File.prototype.write`. -/
def File.write (s : Store) (data : List Nat) (pos : Nat) : Except Err (Store × Nat) :=
  Store.writeAt s data pos

/-- `File.prototype.writeString`: `new Buffer(str)` then write. -/
def File.writeString (s : Store) (str : String) (pos : Nat) : Except Err (Store × Nat) :=
  File.write s (encodeString str) pos

/-- `File.prototype.writeUIntBE`: encode (may raise `RangeError` before
any I/O) then a single positional write. -/
def File.writeUIntBE (s : Store) (value : Int) (pos len : Nat) : Except Err (Store × Nat) := do
  let buf ← encUIntBE value len
  File.write s buf pos

/-- `File.prototype.writeUIntLE`. -/
def File.writeUIntLE (s : Store) (value : Int) (pos len : Nat) : Except Err (Store × Nat) := do
  let buf ← encUIntLE value len
  File.write s buf pos

/-- `File.prototype.writeIntBE`. -/
def File.writeIntBE (s : Store) (value : Int) (pos len : Nat) : Except Err (Store × Nat) := do
  let buf ← encIntBE value len
  File.write s buf pos

/-- `File.prototype.writeIntLE`. -/
def File.writeIntLE (s : Store) (value : Int) (pos len : Nat) : Except Err (Store × Nat) := do
  let buf ← encIntLE value len
  File.write s buf pos

/-- `File.prototype.writeStringLenBE`: one buffer holding the big-endian
length prefix (`RangeError` if the byte length does not fit) followed by
the UTF-8 text, written with a single positional write. -/
def File.writeStringLenBE (s : Store) (str : String) (pos len_size : Nat) :
    Except Err (Store × Nat) := do
  let sb := encodeString str
  let lenbuf ← encUIntBE (sb.length : Int) len_size
  File.write s (lenbuf ++ sb) pos

/-- `File.prototype.writeStringLenLE`. -/
def File.writeStringLenLE (s : Store) (str : String) (pos len_size : Nat) :
    Except Err (Store × Nat) := do
  let sb := encodeString str
  let lenbuf ← encUIntLE (sb.length : Int) len_size
  File.write s (lenbuf ++ sb) pos

/-- `File.prototype.writeBufferLenBE`: length prefix then raw payload,
one positional write (`Buffer.concat`). -/
def File.writeBufferLenBE (s : Store) (data : List Nat) (pos len_size : Nat) :
    Except Err (Store × Nat) := do
  let lenbuf ← encUIntBE (data.length : Int) len_size
  File.write s (lenbuf ++ data) pos

/-- `File.prototype.writeBufferLenLE`. -/
def File.writeBufferLenLE (s : Store) (data : List Nat) (pos len_size : Nat) :
    Except Err (Store × Nat) := do
  let lenbuf ← encUIntLE (data.length : Int) len_size
  File.write s (lenbuf ++ data) pos

/-! ### Struct executors (`lib/struct.js`)

A chaining call on a `Write`/`Read` struct pushes a deferred closure; we
represent the queued closure by the field descriptor it captured.  The
`run` functions below are exactly the bodies of those closures. -/

/-- A queued write-struct field: the chaining method that queued it plus
the captured arguments. -/
inductive WField
  | buffer (data : List Nat)
  | string (str : String)
  | stringLenBE (str : String) (len_size : Nat)
  | stringLenLE (str : String) (len_size : Nat)
  | bufferLenBE (data : List Nat) (len_size : Nat)
  | bufferLenLE (data : List Nat) (len_size : Nat)
  | uintBE (value : Int) (len : Nat)
  | uintLE (value : Int) (len : Nat)
  | intBE (value : Int) (len : Nat)
  | intLE (value : Int) (len : Nat)
deriving DecidableEq, Repr

/-- Body of a queued write closure: the `File` call it performs at the
current cursor; yields the updated store and `bytesWritten`. -/
def WField.run (f : WField) (s : Store) (pos : Nat) : Except Err (Store × Nat) :=
  match f with
  | .buffer data => File.write s data pos
  | .string str => File.writeString s str pos
  | .stringLenBE str ls => File.writeStringLenBE s str pos ls
  | .stringLenLE str ls => File.writeStringLenLE s str pos ls
  | .bufferLenBE d ls => File.writeBufferLenBE s d pos ls
  | .bufferLenLE d ls => File.writeBufferLenLE s d pos ls
  | .uintBE v l => File.writeUIntBE s v pos l
  | .uintLE v l => File.writeUIntLE s v pos l
  | .intBE v l => File.writeIntBE s v pos l
  | .intLE v l => File.writeIntLE s v pos l

/-- A queued read-struct field: result name plus shape parameters. -/
inductive RField
  | buffer (name : String) (len : Nat)
  | string (name : String) (len : Nat)
  | uintBE (name : String) (len : Nat)
  | uintLE (name : String) (len : Nat)
  | intBE (name : String) (len : Nat)
  | intLE (name : String) (len : Nat)
  | stringLenBE (name : String) (len_size : Nat)
  | stringLenLE (name : String) (len_size : Nat)
  | bufferLenBE (name : String) (len_size : Nat)
  | bufferLenLE (name : String) (len_size : Nat)
deriving DecidableEq, Repr

/-- Body of a queued read closure: the `File` call it performs at the
current cursor; yields store, result name, decoded value, `bytesRead`. -/
def RField.run (f : RField) (s : Store) (pos : Nat) :
    Except Err (Store × String × Value × Nat) :=
  match f with
  | .buffer name len =>
    (File.read s pos len).map fun (s1, data, br) => (s1, name, .bytes data, br)
  | .string name len =>
    (File.readString s pos len).map fun (s1, v, br) => (s1, name, .str v, br)
  | .uintBE name len =>
    (File.readUIntBE s pos len).map fun (s1, v, br) => (s1, name, .int v, br)
  | .uintLE name len =>
    (File.readUIntLE s pos len).map fun (s1, v, br) => (s1, name, .int v, br)
  | .intBE name len =>
    (File.readIntBE s pos len).map fun (s1, v, br) => (s1, name, .int v, br)
  | .intLE name len =>
    (File.readIntLE s pos len).map fun (s1, v, br) => (s1, name, .int v, br)
  | .stringLenBE name ls =>
    (File.readStringLenBE s pos ls).map fun (s1, v, br) => (s1, name, .str v, br)
  | .stringLenLE name ls =>
    (File.readStringLenLE s pos ls).map fun (s1, v, br) => (s1, name, .str v, br)
  | .bufferLenBE name ls =>
    (File.readBufferLenBE s pos ls).map fun (s1, v, br) => (s1, name, v, br)
  | .bufferLenLE name ls =>
    (File.readBufferLenLE s pos ls).map fun (s1, v, br) => (s1, name, v, br)

/-- Outcome of executing a write struct.  `cb pos store`: the user
callback was invoked once as `cb(null, position)`.  `thrown e pos store`:
an exception escaped (via `makeCallback` or a synchronous `RangeError`);
the user callback was never invoked; `pos`/`store` record the cursor and
store state reached when the exception was raised. -/
inductive WOutcome
  | cb (position : Nat) (store : Store)
  | thrown (e : Err) (position : Nat) (store : Store)
deriving DecidableEq, Repr

/-- `Write.prototype.write`: drain the queue in order; an empty queue
reports `cb(null, this.position)`; each success advances the cursor by
`bytesWritten`.  (The source's `if (err) return cb(err)` branch is
unreachable because `makeCallback` rethrows; an error here aborts the
remaining queue as a thrown exception.) -/
def Write.write : List WField → Store → Nat → WOutcome
  | [], s, pos => .cb pos s
  | f :: rest, s, pos =>
    match WField.run f s pos with
    | .error e => .thrown e pos s
    | .ok (s1, written) => Write.write rest s1 (pos + written)

/-- JS object assignment `result[name] = value` on an insertion-ordered
mapping: update in place if the key exists, else append. -/
def setKey (m : List (String × Value)) (name : String) (v : Value) : List (String × Value) :=
  if m.any (fun p => p.1 = name) then
    m.map (fun p => if p.1 = name then (name, v) else p)
  else m ++ [(name, v)]

/-- Outcome of executing a read struct; `result` is the accumulated
mapping (insertion-ordered), `position` the cursor. -/
inductive ROutcome
  | cb (result : List (String × Value)) (position : Nat) (store : Store)
  | thrown (e : Err) (result : List (String × Value)) (position : Nat) (store : Store)
deriving DecidableEq, Repr

/-- `Read.prototype.read`: drain the queue in order; an empty queue
reports `cb(null, result, this.position)`; each success advances the
cursor by `bytesRead` and stores `result[name] = value`. -/
def Read.read : List RField → Store → Nat → List (String × Value) → ROutcome
  | [], s, pos, result => .cb result pos s
  | f :: rest, s, pos, result =>
    match RField.run f s pos with
    | .error e => .thrown e result pos s
    | .ok (s1, name, v, br) => Read.read rest s1 (pos + br) (setKey result name v)

/-- The `Write` struct object: `function Write(file, position)` stores
the position argument as passed — when the caller omits it the cursor is
left `undefined` (modelled as `none`); there is no `|| 0` default. -/
structure WriteStruct where
  position : Option Nat
  queue : List WField
deriving DecidableEq, Repr

/-- `new Struct.Write(file, position)` (the store handle is kept
external): empty queue, cursor as passed. -/
def Write.new (position : Option Nat) : WriteStruct :=
  ⟨position, []⟩

/-- The `Read` struct object: `function Read(file, position)` applies
`position || 0`, so the cursor is always defined. -/
structure ReadStruct where
  position : Nat
  queue : List RField
deriving DecidableEq, Repr

/-- `new Struct.Read(file, position)`: cursor `position || 0`. -/
def Read.new (position : Option Nat) : ReadStruct :=
  ⟨position.getD 0, []⟩

/-- `File.prototype.createWriteStruct(pos)`: `new Struct.Write(this, pos || 0)`. -/
def File.createWriteStruct (pos : Option Nat) : WriteStruct :=
  Write.new (some (pos.getD 0))

/-- `File.prototype.createReadStruct(pos)`: `new Struct.Read(this, pos || 0)`. -/
def File.createReadStruct (pos : Option Nat) : ReadStruct :=
  Read.new (some (pos.getD 0))

/-- Execute a read struct against a store. -/
def ReadStruct.exec (r : ReadStruct) (s : Store) : ROutcome :=
  Read.read r.queue s r.position []

/-- Execute a write struct against a store.  A struct whose cursor is
`undefined` is outside the model (`fs.write` would then use the file's
implicit current position and the cursor arithmetic produces `NaN`), so
execution is only defined for a present cursor. -/
def WriteStruct.exec (w : WriteStruct) (s : Store) : Option WOutcome :=
  w.position.map (fun p => Write.write w.queue s p)

/-! ### Derived descriptions of fields, used to state the claims -/

/-- The byte payload a write field hands to the single positional write,
or the `RangeError` its encoder raises.  `WField.run` is exactly "encode,
then one `writeAt`" (`run_eq_enc` below). -/
def WField.enc (f : WField) : Except Err (List Nat) :=
  match f with
  | .buffer data => .ok data
  | .string str => .ok (encodeString str)
  | .stringLenBE str ls =>
    (encUIntBE ((encodeString str).length : Int) ls).map (· ++ encodeString str)
  | .stringLenLE str ls =>
    (encUIntLE ((encodeString str).length : Int) ls).map (· ++ encodeString str)
  | .bufferLenBE d ls => (encUIntBE (d.length : Int) ls).map (· ++ d)
  | .bufferLenLE d ls => (encUIntLE (d.length : Int) ls).map (· ++ d)
  | .uintBE v l => encUIntBE v l
  | .uintLE v l => encUIntLE v l
  | .intBE v l => encIntBE v l
  | .intLE v l => encIntLE v l

/-- Encoded size of a write field (0 when the encoder fails). -/
def WField.sizeD (f : WField) : Nat :=
  match f.enc with
  | .ok bs => bs.length
  | .error _ => 0

/-- Whether a write field's encoder succeeds (no `RangeError`). -/
def WField.encOkB (f : WField) : Bool :=
  match f.enc with
  | .ok _ => true
  | .error _ => false

/-- Propositional form of `encOkB`. -/
def WField.EncOk (f : WField) : Prop :=
  f.encOkB = true

instance (f : WField) : Decidable f.EncOk := by
  unfold WField.EncOk; infer_instance

/-- The value a write field carries — what a faithful round trip should
give back. -/
def WField.value : WField → Value
  | .buffer d => .bytes d
  | .string s => .str s
  | .stringLenBE s _ => .str s
  | .stringLenLE s _ => .str s
  | .bufferLenBE d _ => .bytes d
  | .bufferLenLE d _ => .bytes d
  | .uintBE v _ => .int v
  | .uintLE v _ => .int v
  | .intBE v _ => .int v
  | .intLE v _ => .int v

/-- The read field with the same kind and widths as a write field (the
read side of a round trip): fixed-width kinds keep their width, a
`string`/`buffer` read takes the written byte count, length-prefixed
kinds keep the prefix width. -/
def WField.toRead (f : WField) (name : String) : RField :=
  match f with
  | .buffer d => .buffer name d.length
  | .string s => .string name (encodeString s).length
  | .stringLenBE _ ls => .stringLenBE name ls
  | .stringLenLE _ ls => .stringLenLE name ls
  | .bufferLenBE _ ls => .bufferLenBE name ls
  | .bufferLenLE _ ls => .bufferLenLE name ls
  | .uintBE _ l => .uintBE name l
  | .uintLE _ l => .uintLE name l
  | .intBE _ l => .intBE name l
  | .intLE _ l => .intLE name l

/-- `True` for every kind except the length-prefixed buffers (whose read
side hits the undeclared-variable defect). -/
def WField.noBufLen : WField → Prop
  | .bufferLenBE _ _ => False
  | .bufferLenLE _ _ => False
  | _ => True

instance : (f : WField) → Decidable f.noBufLen := by
  intro f; cases f <;> simp only [WField.noBufLen] <;> infer_instance

/-- Encoded payloads of a list of write fields (empty for a failing
encoder; only used under `EncOk` hypotheses). -/
def encList (fs : List WField) : List (List Nat) :=
  fs.map fun f =>
    match f.enc with
    | .ok bs => bs
    | .error _ => []

/-- Concatenated payload of a list of write fields. -/
def flatEnc (fs : List WField) : List Nat :=
  (encList fs).flatten

/-- Bytes a read field consumes on success when run against `mem` at
`pos`: its fixed width, or — for length-prefixed kinds — the prefix
width plus the value decoded from the prefix bytes. -/
def RField.consumedAt (f : RField) (mem : List Nat) (pos : Nat) : Nat :=
  match f with
  | .buffer _ len => len
  | .string _ len => len
  | .uintBE _ len => len
  | .uintLE _ len => len
  | .intBE _ len => len
  | .intLE _ len => len
  | .stringLenBE _ ls => ls + decUIntBE ((mem.drop pos).take ls)
  | .stringLenLE _ ls => ls + decUIntLE ((mem.drop pos).take ls)
  | .bufferLenBE _ ls => ls + decUIntBE ((mem.drop pos).take ls)
  | .bufferLenLE _ ls => ls + decUIntLE ((mem.drop pos).take ls)

/-- Per-field consumed byte counts along a read struct's trajectory. -/
def consumedList : List RField → List Nat → Nat → List Nat
  | [], _, _ => []
  | f :: fs, mem, pos =>
    f.consumedAt mem pos :: consumedList fs mem (pos + f.consumedAt mem pos)

/-! ### Integer codec lemmas -/

theorem length_bytesBE (v len : Nat) : (bytesBE v len).length = len := by
  induction len generalizing v with
  | zero => rfl
  | succ n ih => simp [bytesBE, ih]

theorem length_bytesLE (v len : Nat) : (bytesLE v len).length = len := by
  induction len generalizing v with
  | zero => rfl
  | succ n ih => simp [bytesLE, ih]

theorem decUIntBE_append_singleton (xs : List Nat) (b : Nat) :
    decUIntBE (xs ++ [b]) = decUIntBE xs * 256 + b := by
  simp [decUIntBE, List.foldl_append]

theorem decUIntBE_bytesBE (v len : Nat) (h : v < 2 ^ (8 * len)) :
    decUIntBE (bytesBE v len) = v := by
  induction len generalizing v with
  | zero =>
    have hv : v = 0 := by simpa using h
    simp [hv, bytesBE, decUIntBE]
  | succ n ih =>
    have hpow : (2 : Nat) ^ (8 * (n + 1)) = 2 ^ (8 * n) * 256 := by
      rw [show 8 * (n + 1) = 8 * n + 8 by ring, pow_add]; norm_num
    have hdiv : v / 256 < 2 ^ (8 * n) := by
      rw [Nat.div_lt_iff_lt_mul (by norm_num : 0 < 256)]
      omega
    rw [bytesBE, decUIntBE_append_singleton, ih _ hdiv]
    have := Nat.div_add_mod v 256
    omega

theorem decUIntLE_cons (b : Nat) (bs : List Nat) :
    decUIntLE (b :: bs) = decUIntLE bs * 256 + b := rfl

theorem decUIntLE_bytesLE (v len : Nat) (h : v < 2 ^ (8 * len)) :
    decUIntLE (bytesLE v len) = v := by
  induction len generalizing v with
  | zero =>
    have hv : v = 0 := by simpa using h
    simp [hv, bytesLE, decUIntLE]
  | succ n ih =>
    have hpow : (2 : Nat) ^ (8 * (n + 1)) = 2 ^ (8 * n) * 256 := by
      rw [show 8 * (n + 1) = 8 * n + 8 by ring, pow_add]; norm_num
    have hdiv : v / 256 < 2 ^ (8 * n) := by
      rw [Nat.div_lt_iff_lt_mul (by norm_num : 0 < 256)]
      omega
    rw [bytesLE, decUIntLE_cons, ih _ hdiv]
    have := Nat.div_add_mod v 256
    omega

theorem emod_toNat_lt (v : Int) (len : Nat) :
    (v % ((2 : Int) ^ (8 * len))).toNat < 2 ^ (8 * len) := by
  have hpos : (0 : Int) < 2 ^ (8 * len) := by positivity
  have hlt := Int.emod_lt_of_pos v hpos
  have hmod := Int.emod_nonneg v (by omega : (2 : Int) ^ (8 * len) ≠ 0)
  have hcast : ((2 ^ (8 * len) : Nat) : Int) = 2 ^ (8 * len) := by push_cast; ring
  omega

theorem toSigned_emod (v : Int) (len : Nat) (hlen : 1 ≤ len)
    (hlo : -(2 ^ (8 * len - 1)) ≤ v) (hhi : v < 2 ^ (8 * len - 1)) :
    toSigned ((v % (2 ^ (8 * len))).toNat) len = v := by
  have hsplit : (2 : Int) ^ (8 * len) = 2 ^ (8 * len - 1) * 2 := by
    rw [← pow_succ]
    congr 1
    omega
  have hHpos : (0 : Int) < 2 ^ (8 * len - 1) := by positivity
  have hcastH : ((2 ^ (8 * len - 1) : Nat) : Int) = 2 ^ (8 * len - 1) := by push_cast; ring
  have hcastM : ((2 ^ (8 * len) : Nat) : Int) = 2 ^ (8 * len) := by push_cast; ring
  unfold toSigned
  by_cases hv : 0 ≤ v
  · have hmod : v % (2 ^ (8 * len)) = v := Int.emod_eq_of_lt hv (by omega)
    rw [hmod, if_pos (by omega)]
    omega
  · have hmod : v % (2 ^ (8 * len)) = v + 2 ^ (8 * len) := by
      have h1 : v % (2 ^ (8 * len)) = (v + 2 ^ (8 * len) * 1) % (2 ^ (8 * len)) :=
        (Int.add_mul_emod_self_left v (2 ^ (8 * len)) 1).symm
      rw [h1, mul_one, Int.emod_eq_of_lt (by omega) (by omega)]
    rw [hmod, if_neg (by omega)]
    omega

/-! ### UTF-8 codec lemmas -/

theorem utf8DecAux_irrel (f1 : Nat) : ∀ (f2 : Nat) (bs : List Nat),
    bs.length ≤ f1 → bs.length ≤ f2 → utf8DecAux f1 bs = utf8DecAux f2 bs := by
  induction f1 with
  | zero =>
    intro f2 bs h1 h2
    cases bs with
    | nil => cases f2 <;> rfl
    | cons b tl => simp at h1
  | succ f ih =>
    intro f2 bs h1 h2
    cases bs with
    | nil => cases f2 <;> rfl
    | cons b0 tl =>
      cases f2 with
      | zero => simp at h2
      | succ g =>
        rw [utf8DecAux, utf8DecAux]
        cases h : utf8DecodeOne (b0 :: tl) with
        | none => rfl
        | some p =>
          obtain ⟨n, rest⟩ := p
          have hlt := utf8DecodeOne_length _ _ _ h
          simp only [List.length_cons] at hlt h1 h2
          dsimp only
          rw [ih g rest (by omega) (by omega)]

theorem utf8DecAux_eq_utf8Dec (fuel : Nat) (bs : List Nat) (h : bs.length ≤ fuel) :
    utf8DecAux fuel bs = utf8Dec bs :=
  utf8DecAux_irrel fuel bs.length bs h le_rfl

theorem utf8Dec_eq_some (bs : List Nat) (n : Nat) (rest : List Nat)
    (h : utf8DecodeOne bs = some (n, rest)) :
    utf8Dec bs = (utf8Dec rest).map (n :: ·) := by
  cases bs with
  | nil => simp [utf8DecodeOne] at h
  | cons b0 tl =>
    have hlt := utf8DecodeOne_length _ _ _ h
    simp only [List.length_cons] at hlt
    show utf8DecAux (b0 :: tl).length (b0 :: tl) = _
    rw [show (b0 :: tl).length = tl.length + 1 from rfl, utf8DecAux, h]
    dsimp only
    rw [utf8DecAux_eq_utf8Dec tl.length rest (by omega)]

theorem utf8Dec_nil : utf8Dec [] = some [] := rfl

theorem utf8DecodeOne_one (b0 : Nat) (bs : List Nat) (h : b0 < 0x80) :
    utf8DecodeOne (b0 :: bs) = some (b0, bs) := by
  simp [utf8DecodeOne, h]

theorem utf8DecodeOne_two (b0 b1 : Nat) (bs : List Nat) (h1 : ¬b0 < 0x80) (h2 : ¬b0 < 0xC0)
    (h3 : b0 < 0xE0) (h4 : b1 / 64 = 2) :
    utf8DecodeOne (b0 :: b1 :: bs) = some ((b0 - 0xC0) * 64 + (b1 - 0x80), bs) := by
  simp [utf8DecodeOne, h1, h2, h3, h4]

theorem utf8DecodeOne_three (b0 b1 b2 : Nat) (bs : List Nat) (h1 : ¬b0 < 0x80)
    (h2 : ¬b0 < 0xC0) (h3 : ¬b0 < 0xE0) (h4 : b0 < 0xF0) (h5 : b1 / 64 = 2) (h6 : b2 / 64 = 2) :
    utf8DecodeOne (b0 :: b1 :: b2 :: bs) =
      some ((b0 - 0xE0) * 4096 + (b1 - 0x80) * 64 + (b2 - 0x80), bs) := by
  simp [utf8DecodeOne, h1, h2, h3, h4, h5, h6]

theorem utf8DecodeOne_four (b0 b1 b2 b3 : Nat) (bs : List Nat) (h1 : ¬b0 < 0x80)
    (h2 : ¬b0 < 0xC0) (h3 : ¬b0 < 0xE0) (h4 : ¬b0 < 0xF0) (h5 : b0 < 0xF8) (h6 : b1 / 64 = 2)
    (h7 : b2 / 64 = 2) (h8 : b3 / 64 = 2) :
    utf8DecodeOne (b0 :: b1 :: b2 :: b3 :: bs) =
      some ((b0 - 0xF0) * 262144 + (b1 - 0x80) * 4096 + (b2 - 0x80) * 64 + (b3 - 0x80), bs) := by
  simp [utf8DecodeOne, h1, h2, h3, h4, h5, h6, h7, h8]

theorem utf8Dec_one (b0 : Nat) (bs : List Nat) (h : b0 < 0x80) :
    utf8Dec (b0 :: bs) = (utf8Dec bs).map (b0 :: ·) :=
  utf8Dec_eq_some _ _ _ (utf8DecodeOne_one b0 bs h)

theorem utf8Dec_two (b0 b1 : Nat) (bs : List Nat) (h1 : ¬b0 < 0x80) (h2 : ¬b0 < 0xC0)
    (h3 : b0 < 0xE0) (h4 : b1 / 64 = 2) :
    utf8Dec (b0 :: b1 :: bs) = (utf8Dec bs).map (((b0 - 0xC0) * 64 + (b1 - 0x80)) :: ·) :=
  utf8Dec_eq_some _ _ _ (utf8DecodeOne_two b0 b1 bs h1 h2 h3 h4)

theorem utf8Dec_three (b0 b1 b2 : Nat) (bs : List Nat) (h1 : ¬b0 < 0x80) (h2 : ¬b0 < 0xC0)
    (h3 : ¬b0 < 0xE0) (h4 : b0 < 0xF0) (h5 : b1 / 64 = 2) (h6 : b2 / 64 = 2) :
    utf8Dec (b0 :: b1 :: b2 :: bs) =
      (utf8Dec bs).map (((b0 - 0xE0) * 4096 + (b1 - 0x80) * 64 + (b2 - 0x80)) :: ·) :=
  utf8Dec_eq_some _ _ _ (utf8DecodeOne_three b0 b1 b2 bs h1 h2 h3 h4 h5 h6)

theorem utf8Dec_four (b0 b1 b2 b3 : Nat) (bs : List Nat) (h1 : ¬b0 < 0x80) (h2 : ¬b0 < 0xC0)
    (h3 : ¬b0 < 0xE0) (h4 : ¬b0 < 0xF0) (h5 : b0 < 0xF8) (h6 : b1 / 64 = 2) (h7 : b2 / 64 = 2)
    (h8 : b3 / 64 = 2) :
    utf8Dec (b0 :: b1 :: b2 :: b3 :: bs) =
      (utf8Dec bs).map
        (((b0 - 0xF0) * 262144 + (b1 - 0x80) * 4096 + (b2 - 0x80) * 64 + (b3 - 0x80)) :: ·) :=
  utf8Dec_eq_some _ _ _ (utf8DecodeOne_four b0 b1 b2 b3 bs h1 h2 h3 h4 h5 h6 h7 h8)

theorem utf8Dec_encodeChar (n : Nat) (hn : n < 0x110000) (rest : List Nat) :
    utf8Dec (utf8EncodeCharNat n ++ rest) = (utf8Dec rest).map (n :: ·) := by
  by_cases h1 : n < 0x80
  · rw [show utf8EncodeCharNat n = [n] by simp [utf8EncodeCharNat, h1]]
    rw [List.cons_append, List.nil_append, utf8Dec_one _ _ h1]
  · by_cases h2 : n < 0x800
    · rw [show utf8EncodeCharNat n = [0xC0 + n / 64, 0x80 + n % 64] by
        simp [utf8EncodeCharNat, h1, h2]]
      rw [List.cons_append, List.cons_append, List.nil_append,
        utf8Dec_two _ _ _ (by omega) (by omega) (by omega) (by omega)]
      rw [show (0xC0 + n / 64 - 0xC0) * 64 + (0x80 + n % 64 - 0x80) = n by omega]
    · by_cases h3 : n < 0x10000
      · rw [show utf8EncodeCharNat n = [0xE0 + n / 4096, 0x80 + n / 64 % 64, 0x80 + n % 64] by
          simp [utf8EncodeCharNat, h1, h2, h3]]
        rw [List.cons_append, List.cons_append, List.cons_append, List.nil_append,
          utf8Dec_three _ _ _ _ (by omega) (by omega) (by omega) (by omega) (by omega) (by omega)]
        rw [show (0xE0 + n / 4096 - 0xE0) * 4096 + (0x80 + n / 64 % 64 - 0x80) * 64 +
          (0x80 + n % 64 - 0x80) = n by omega]
      · rw [show utf8EncodeCharNat n =
            [0xF0 + n / 262144, 0x80 + n / 4096 % 64, 0x80 + n / 64 % 64, 0x80 + n % 64] by
          simp [utf8EncodeCharNat, h1, h2, h3]]
        rw [List.cons_append, List.cons_append, List.cons_append, List.cons_append,
          List.nil_append,
          utf8Dec_four _ _ _ _ _ (by omega) (by omega) (by omega) (by omega) (by omega)
            (by omega) (by omega) (by omega)]
        rw [show (0xF0 + n / 262144 - 0xF0) * 262144 + (0x80 + n / 4096 % 64 - 0x80) * 4096 +
          (0x80 + n / 64 % 64 - 0x80) * 64 + (0x80 + n % 64 - 0x80) = n by omega]

theorem char_toNat_lt (c : Char) : c.toNat < 0x110000 := by
  have hv := c.valid
  simp only [UInt32.isValidChar, Nat.isValidChar] at hv
  have h : c.toNat = c.val.toNat := rfl
  rw [h]
  omega

theorem utf8Dec_encodeChars (cs : List Char) (rest : List Nat) :
    utf8Dec ((cs.map (fun c => utf8EncodeCharNat c.toNat)).flatten ++ rest)
      = (utf8Dec rest).map (cs.map Char.toNat ++ ·) := by
  induction cs with
  | nil =>
    simp only [List.map_nil, List.flatten_nil, List.nil_append]
    cases h : utf8Dec rest <;> simp [h]
  | cons c cs ih =>
    simp only [List.map_cons, List.flatten_cons, List.append_assoc]
    rw [utf8Dec_encodeChar _ (char_toNat_lt c), ih]
    cases h : utf8Dec rest <;> simp [h]

theorem decodeString_encodeString (s : String) : decodeString (encodeString s) = s := by
  have h := utf8Dec_encodeChars s.data []
  rw [List.append_nil, utf8Dec_nil] at h
  simp only [Option.map_some', List.append_nil] at h
  unfold decodeString
  unfold encodeString
  rw [h]
  simp only [List.map_map]
  have hmap : s.data.map (Char.ofNat ∘ Char.toNat) = s.data := by
    apply List.map_id''
    intro c
    exact Char.ofNat_toNat c
  rw [hmap]

/-! ### Store-write algebra -/

theorem writeBytes_nil (mem : List Nat) (pos : Nat) : writeBytes mem pos [] = mem := by
  simp [writeBytes]

theorem take_pad_length (mem : List Nat) (pos : Nat) :
    (mem.take pos ++ List.replicate (pos - mem.length) 0).length = pos := by
  simp [List.length_take]
  omega

theorem writeBytes_eq (mem : List Nat) (pos : Nat) (data : List Nat) (h : data ≠ []) :
    writeBytes mem pos data =
      (mem.take pos ++ List.replicate (pos - mem.length) 0) ++
        (data ++ mem.drop (pos + data.length)) := by
  simp [writeBytes, h, List.append_assoc]

theorem writeBytes_length (mem : List Nat) (pos : Nat) (data : List Nat) (h : data ≠ []) :
    (writeBytes mem pos data).length = max (pos + data.length) mem.length := by
  rw [writeBytes_eq mem pos data h]
  simp [take_pad_length, List.length_take]
  omega

theorem drop_writeBytes (mem : List Nat) (pos : Nat) (data : List Nat) (h : data ≠ []) :
    (writeBytes mem pos data).drop pos = data ++ mem.drop (pos + data.length) := by
  rw [writeBytes_eq mem pos data h]
  exact List.drop_left' (take_pad_length mem pos)

theorem writeBytes_append (mem : List Nat) (pos : Nat) (d1 d2 : List Nat) :
    writeBytes (writeBytes mem pos d1) (pos + d1.length) d2 = writeBytes mem pos (d1 ++ d2) := by
  rcases eq_or_ne d1 [] with h1 | h1
  · subst h1
    simp [writeBytes_nil]
  · rcases eq_or_ne d2 [] with h2 | h2
    · subst h2
      simp [writeBytes_nil]
    · have h12 : d1 ++ d2 ≠ [] := by simp [h1]
      rw [writeBytes_eq mem pos d1 h1, writeBytes_eq _ _ d2 h2,
        writeBytes_eq mem pos (d1 ++ d2) h12]
      generalize hP : mem.take pos ++ List.replicate (pos - mem.length) 0 = P
      have hPlen : P.length = pos := by rw [← hP]; exact take_pad_length mem pos
      have hassoc : P ++ (d1 ++ mem.drop (pos + d1.length)) =
          (P ++ d1) ++ mem.drop (pos + d1.length) := by simp [List.append_assoc]
      rw [hassoc]
      have hlen1 : (P ++ d1).length = pos + d1.length := by
        rw [List.length_append, hPlen]
      have htake : ((P ++ d1) ++ mem.drop (pos + d1.length)).take (pos + d1.length) = P ++ d1 :=
        List.take_left' hlen1
      have hrep : pos + d1.length - ((P ++ d1) ++ mem.drop (pos + d1.length)).length = 0 := by
        rw [List.length_append, hlen1]
        omega
      have hdrop : ((P ++ d1) ++ mem.drop (pos + d1.length)).drop (pos + d1.length + d2.length) =
          mem.drop (pos + d1.length + d2.length) := by
        conv_lhs =>
          rw [show pos + d1.length + d2.length = (P ++ d1).length + d2.length by rw [hlen1]]
        rw [List.drop_append, List.drop_drop]
      rw [htake, hrep, hdrop]
      simp [List.append_assoc, Nat.add_assoc]

/-! ### Write-executor lemmas -/

theorem run_eq_enc (f : WField) (s : Store) (pos : Nat) :
    f.run s pos =
      match f.enc with
      | .error e => .error e
      | .ok bs => s.writeAt bs pos := by
  cases f with
  | buffer d => rfl
  | string str => rfl
  | stringLenBE str ls =>
    simp only [WField.run, WField.enc, File.writeStringLenBE]
    cases h : encUIntBE ((encodeString str).length : Int) ls <;> rfl
  | stringLenLE str ls =>
    simp only [WField.run, WField.enc, File.writeStringLenLE]
    cases h : encUIntLE ((encodeString str).length : Int) ls <;> rfl
  | bufferLenBE d ls =>
    simp only [WField.run, WField.enc, File.writeBufferLenBE]
    cases h : encUIntBE (d.length : Int) ls <;> rfl
  | bufferLenLE d ls =>
    simp only [WField.run, WField.enc, File.writeBufferLenLE]
    cases h : encUIntLE (d.length : Int) ls <;> rfl
  | uintBE v l =>
    simp only [WField.run, WField.enc, File.writeUIntBE]
    cases h : encUIntBE v l <;> rfl
  | uintLE v l =>
    simp only [WField.run, WField.enc, File.writeUIntLE]
    cases h : encUIntLE v l <;> rfl
  | intBE v l =>
    simp only [WField.run, WField.enc, File.writeIntBE]
    cases h : encIntBE v l <;> rfl
  | intLE v l =>
    simp only [WField.run, WField.enc, File.writeIntLE]
    cases h : encIntLE v l <;> rfl

theorem encOk_exists {f : WField} (h : f.EncOk) : ∃ bs, f.enc = .ok bs := by
  unfold WField.EncOk WField.encOkB at h
  cases he : f.enc with
  | ok bs => exact ⟨bs, rfl⟩
  | error e => rw [he] at h; simp at h

theorem sizeD_eq {f : WField} {bs : List Nat} (h : f.enc = .ok bs) : f.sizeD = bs.length := by
  unfold WField.sizeD
  rw [h]

theorem flatEnc_nil : flatEnc [] = [] := rfl

theorem flatEnc_cons {f : WField} {bs : List Nat} (h : f.enc = .ok bs) (fs : List WField) :
    flatEnc (f :: fs) = bs ++ flatEnc fs := by
  unfold flatEnc encList
  simp [h]

theorem write_all (fs : List WField) : ∀ (s : Store) (P : Nat),
    (∀ f ∈ fs, f.EncOk) → s.failWriteOn = [] →
    Write.write fs s P =
      .cb (P + (fs.map WField.sizeD).sum)
        { s with mem := writeBytes s.mem P (flatEnc fs),
                 writeCalls := s.writeCalls + fs.length } := by
  induction fs with
  | nil =>
    intro s P _ _
    simp [Write.write, flatEnc, encList, writeBytes_nil]
  | cons f fs ih =>
    intro s P hok hfail
    obtain ⟨bs, hbs⟩ := encOk_exists (hok f (by simp))
    simp only [Write.write]
    rw [run_eq_enc, hbs]
    unfold Store.writeAt
    dsimp only
    rw [if_neg (by rw [hfail]; simp)]
    dsimp only
    rw [ih _ _ (fun g hg => hok g (by simp [hg])) (by simpa using hfail)]
    rw [flatEnc_cons hbs, writeBytes_append]
    have h1 : P + bs.length + (List.map WField.sizeD fs).sum
        = P + (List.map WField.sizeD (f :: fs)).sum := by
      rw [List.map_cons, List.sum_cons, sizeD_eq hbs]
      omega
    have h2 : s.writeCalls + 1 + fs.length = s.writeCalls + (f :: fs).length := by
      simp only [List.length_cons]
      omega
    rw [h1, h2]

theorem write_append (xs ys : List WField) : ∀ (s : Store) (P : Nat),
    Write.write (xs ++ ys) s P =
      match Write.write xs s P with
      | .cb p1 s1 => Write.write ys s1 p1
      | .thrown e p1 s1 => .thrown e p1 s1 := by
  induction xs with
  | nil =>
    intro s P
    simp [Write.write]
  | cons f xs ih =>
    intro s P
    simp only [List.cons_append, Write.write]
    cases h : WField.run f s P with
    | error e => rfl
    | ok r =>
      obtain ⟨s1, w⟩ := r
      dsimp only
      exact ih s1 (P + w)

theorem run_ok_sizeD {f : WField} {s : Store} {pos : Nat} {s1 : Store} {w : Nat}
    (h : f.run s pos = .ok (s1, w)) : w = f.sizeD := by
  rw [run_eq_enc] at h
  cases he : f.enc with
  | error e =>
    rw [he] at h
    exact Except.noConfusion h
  | ok bs =>
    rw [he] at h
    dsimp only at h
    unfold Store.writeAt at h
    split at h
    · exact Except.noConfusion h
    · injection h with h3
      injection h3 with h4 h5
      rw [sizeD_eq he]
      exact h5.symm

theorem write_cb_position (fs : List WField) : ∀ (s : Store) (P p1 : Nat) (s1 : Store),
    Write.write fs s P = .cb p1 s1 → p1 = P + (fs.map WField.sizeD).sum := by
  induction fs with
  | nil =>
    intro s P p1 s1 h
    have h1 : P = p1 := by
      simp only [Write.write, WOutcome.cb.injEq] at h
      exact h.1
    rw [List.map_nil, List.sum_nil, Nat.add_zero]
    omega
  | cons f fs ih =>
    intro s P p1 s1 h
    simp only [Write.write] at h
    cases h2 : WField.run f s P with
    | error e =>
      rw [h2] at h
      exact WOutcome.noConfusion h
    | ok r =>
      obtain ⟨s2, w⟩ := r
      rw [h2] at h
      dsimp only at h
      have := ih _ _ _ _ h
      rw [List.map_cons, List.sum_cons, ← run_ok_sizeD h2]
      omega

theorem write_fail (xs : List WField) : ∀ (f : WField) (ys : List WField) (s : Store) (P : Nat)
    (bs : List Nat),
    (∀ g ∈ xs, g.EncOk) → f.enc = .ok bs →
    s.failWriteOn = [s.writeCalls + xs.length] →
    Write.write (xs ++ f :: ys) s P =
      .thrown .ioError (P + (xs.map WField.sizeD).sum)
        { s with mem := writeBytes s.mem P (flatEnc xs),
                 writeCalls := s.writeCalls + xs.length } := by
  induction xs with
  | nil =>
    intro f ys s P bs _ hf hfail
    simp only [List.nil_append, Write.write]
    rw [run_eq_enc, hf]
    unfold Store.writeAt
    dsimp only
    rw [if_pos (by rw [hfail]; simp)]
    simp [flatEnc, encList, writeBytes_nil]
  | cons g xs ih =>
    intro f ys s P bs hok hf hfail
    obtain ⟨gb, hgb⟩ := encOk_exists (hok g (by simp))
    simp only [List.cons_append, Write.write]
    rw [run_eq_enc, hgb]
    unfold Store.writeAt
    dsimp only
    rw [if_neg (by rw [hfail]; simp [List.length_cons]; try omega)]
    dsimp only
    rw [show xs.append (f :: ys) = xs ++ f :: ys from rfl]
    rw [ih f ys _ _ bs (fun x hx => hok x (by simp [hx])) hf
      (by rw [hfail]; simp only [List.length_cons]; try congr 1; try omega)]
    rw [flatEnc_cons hgb, writeBytes_append]
    have h1 : P + gb.length + (List.map WField.sizeD xs).sum
        = P + (List.map WField.sizeD (g :: xs)).sum := by
      rw [List.map_cons, List.sum_cons, sizeD_eq hgb]
      omega
    have h2 : s.writeCalls + 1 + xs.length = s.writeCalls + (g :: xs).length := by
      simp only [List.length_cons]
      omega
    rw [h1, h2]

/-! ### Read-executor lemmas -/

theorem slice_split (mem : List Nat) (pos : Nat) (x y : List Nat)
    (h : (mem.drop pos).take (x.length + y.length) = x ++ y) :
    (mem.drop pos).take x.length = x ∧ (mem.drop (pos + x.length)).take y.length = y := by
  constructor
  · have h1 := congrArg (List.take x.length) h
    rw [List.take_take] at h1
    rw [show x.length ⊓ (x.length + y.length) = x.length by omega] at h1
    rw [h1, List.take_left' rfl]
  · have h2 := congrArg (List.drop x.length) h
    rw [List.drop_take, List.drop_drop, List.drop_left' rfl] at h2
    rw [show x.length + y.length - x.length = y.length by omega] at h2
    exact h2

theorem encUIntBE_ok {v : Int} {l : Nat} {bs : List Nat} (h : encUIntBE v l = .ok bs) :
    1 ≤ l ∧ l ≤ 6 ∧ 0 ≤ v ∧ v < 2 ^ (8 * l) ∧ bs = bytesBE v.toNat l := by
  unfold encUIntBE at h
  split at h
  · rename_i hc
    injection h with h1
    exact ⟨hc.1, hc.2.1, hc.2.2.1, hc.2.2.2, h1.symm⟩
  · exact Except.noConfusion h

theorem encUIntLE_ok {v : Int} {l : Nat} {bs : List Nat} (h : encUIntLE v l = .ok bs) :
    1 ≤ l ∧ l ≤ 6 ∧ 0 ≤ v ∧ v < 2 ^ (8 * l) ∧ bs = bytesLE v.toNat l := by
  unfold encUIntLE at h
  split at h
  · rename_i hc
    injection h with h1
    exact ⟨hc.1, hc.2.1, hc.2.2.1, hc.2.2.2, h1.symm⟩
  · exact Except.noConfusion h

theorem encIntBE_ok {v : Int} {l : Nat} {bs : List Nat} (h : encIntBE v l = .ok bs) :
    1 ≤ l ∧ l ≤ 6 ∧ -(2 ^ (8 * l - 1)) ≤ v ∧ v < 2 ^ (8 * l - 1) ∧
      bs = bytesBE (v % (2 ^ (8 * l))).toNat l := by
  unfold encIntBE at h
  split at h
  · rename_i hc
    injection h with h1
    exact ⟨hc.1, hc.2.1, hc.2.2.1, hc.2.2.2, h1.symm⟩
  · exact Except.noConfusion h

theorem encIntLE_ok {v : Int} {l : Nat} {bs : List Nat} (h : encIntLE v l = .ok bs) :
    1 ≤ l ∧ l ≤ 6 ∧ -(2 ^ (8 * l - 1)) ≤ v ∧ v < 2 ^ (8 * l - 1) ∧
      bs = bytesLE (v % (2 ^ (8 * l))).toNat l := by
  unfold encIntLE at h
  split at h
  · rename_i hc
    injection h with h1
    exact ⟨hc.1, hc.2.1, hc.2.2.1, hc.2.2.2, h1.symm⟩
  · exact Except.noConfusion h

theorem readAt_ok (s : Store) (pos len : Nat) (hfail : s.failReadOn = [])
    (hbound : len = 0 ∨ pos + len ≤ s.mem.length) :
    s.readAt pos len =
      .ok ({ s with readCalls := s.readCalls + 1 }, ((s.mem.drop pos).take len, len)) := by
  unfold Store.readAt
  rw [if_neg (by rw [hfail]; simp), if_pos hbound]

theorem read_ok (s : Store) (pos len : Nat) (hfail : s.failReadOn = [])
    (hbound : len = 0 ∨ pos + len ≤ s.mem.length) :
    File.read s pos len =
      .ok ({ s with readCalls := s.readCalls + 1 }, ((s.mem.drop pos).take len, len)) :=
  readAt_ok s pos len hfail hbound

theorem readString_ok (s : Store) (pos len : Nat) (hfail : s.failReadOn = [])
    (hbound : len = 0 ∨ pos + len ≤ s.mem.length) :
    File.readString s pos len =
      .ok ({ s with readCalls := s.readCalls + 1 },
        (decodeString ((s.mem.drop pos).take len), len)) := by
  unfold File.readString
  rw [read_ok s pos len hfail hbound]
  rfl

theorem exceptOkBind {α β : Type} (a : α) (f : α → Except Err β) :
    (Except.ok a : Except Err α) >>= f = f a := rfl

theorem readUIntBE_ok (s : Store) (pos len : Nat) (hfail : s.failReadOn = [])
    (hlen1 : 1 ≤ len) (hlen6 : len ≤ 6) (hbound : pos + len ≤ s.mem.length) :
    File.readUIntBE s pos len =
      .ok ({ s with readCalls := s.readCalls + 1 },
        (decUIntBE ((s.mem.drop pos).take len), len)) := by
  unfold File.readUIntBE
  rw [read_ok s pos len hfail (Or.inr hbound)]
  have hdl : ((s.mem.drop pos).take len).length = len := by
    simp [List.length_take, List.length_drop]
    omega
  rw [exceptOkBind]
  dsimp only
  unfold bufReadUIntBE
  rw [if_pos ⟨hlen1, hlen6, by omega⟩]
  rw [exceptOkBind]
  rw [List.take_of_length_le (by omega : ((s.mem.drop pos).take len).length ≤ len)]
  rfl

theorem readUIntLE_ok (s : Store) (pos len : Nat) (hfail : s.failReadOn = [])
    (hlen1 : 1 ≤ len) (hlen6 : len ≤ 6) (hbound : pos + len ≤ s.mem.length) :
    File.readUIntLE s pos len =
      .ok ({ s with readCalls := s.readCalls + 1 },
        (decUIntLE ((s.mem.drop pos).take len), len)) := by
  unfold File.readUIntLE
  rw [read_ok s pos len hfail (Or.inr hbound)]
  have hdl : ((s.mem.drop pos).take len).length = len := by
    simp [List.length_take, List.length_drop]
    omega
  rw [exceptOkBind]
  dsimp only
  unfold bufReadUIntLE
  rw [if_pos ⟨hlen1, hlen6, by omega⟩]
  rw [exceptOkBind]
  rw [List.take_of_length_le (by omega : ((s.mem.drop pos).take len).length ≤ len)]
  rfl

theorem readIntBE_ok (s : Store) (pos len : Nat) (hfail : s.failReadOn = [])
    (hlen1 : 1 ≤ len) (hlen6 : len ≤ 6) (hbound : pos + len ≤ s.mem.length) :
    File.readIntBE s pos len =
      .ok ({ s with readCalls := s.readCalls + 1 },
        (toSigned (decUIntBE ((s.mem.drop pos).take len)) len, len)) := by
  unfold File.readIntBE
  rw [read_ok s pos len hfail (Or.inr hbound)]
  have hdl : ((s.mem.drop pos).take len).length = len := by
    simp [List.length_take, List.length_drop]
    omega
  rw [exceptOkBind]
  dsimp only
  unfold bufReadIntBE
  rw [if_pos ⟨hlen1, hlen6, by omega⟩]
  rw [exceptOkBind]
  rw [List.take_of_length_le (by omega : ((s.mem.drop pos).take len).length ≤ len)]
  rfl

theorem readIntLE_ok (s : Store) (pos len : Nat) (hfail : s.failReadOn = [])
    (hlen1 : 1 ≤ len) (hlen6 : len ≤ 6) (hbound : pos + len ≤ s.mem.length) :
    File.readIntLE s pos len =
      .ok ({ s with readCalls := s.readCalls + 1 },
        (toSigned (decUIntLE ((s.mem.drop pos).take len)) len, len)) := by
  unfold File.readIntLE
  rw [read_ok s pos len hfail (Or.inr hbound)]
  have hdl : ((s.mem.drop pos).take len).length = len := by
    simp [List.length_take, List.length_drop]
    omega
  rw [exceptOkBind]
  dsimp only
  unfold bufReadIntLE
  rw [if_pos ⟨hlen1, hlen6, by omega⟩]
  rw [exceptOkBind]
  rw [List.take_of_length_le (by omega : ((s.mem.drop pos).take len).length ≤ len)]
  rfl

/-- Running the matching read field over a store that holds the write
field's encoding at the cursor recovers the written value and consumes
exactly the encoded bytes. -/
theorem toRead_run_ok (f : WField) (name : String) (bs : List Nat) (s : Store) (pos : Nat)
    (henc : f.enc = .ok bs) (hnb : f.noBufLen) (hfail : s.failReadOn = [])
    (hslice : (s.mem.drop pos).take bs.length = bs)
    (hbound : bs.length = 0 ∨ pos + bs.length ≤ s.mem.length) :
    ∃ s2, (f.toRead name).run s pos = .ok (s2, name, f.value, bs.length) ∧
      s2.mem = s.mem ∧ s2.failReadOn = s.failReadOn := by
  cases f with
  | buffer d =>
    simp only [WField.enc, Except.ok.injEq] at henc
    subst henc
    refine ⟨{ s with readCalls := s.readCalls + 1 }, ?_, rfl, rfl⟩
    simp only [WField.toRead, RField.run, WField.value]
    rw [read_ok s pos d.length hfail hbound, hslice]
    rfl
  | string str =>
    simp only [WField.enc, Except.ok.injEq] at henc
    subst henc
    refine ⟨{ s with readCalls := s.readCalls + 1 }, ?_, rfl, rfl⟩
    simp only [WField.toRead, RField.run, WField.value]
    rw [readString_ok s pos _ hfail hbound, hslice, decodeString_encodeString]
    rfl
  | uintBE v l =>
    simp only [WField.enc] at henc
    obtain ⟨hl1, hl6, hv0, hvlt, hbs⟩ := encUIntBE_ok henc
    subst hbs
    have hlen : (bytesBE v.toNat l).length = l := length_bytesBE _ _
    rw [hlen] at hslice hbound
    have hbnd : pos + l ≤ s.mem.length := by omega
    have hc : ((2 ^ (8 * l) : Nat) : Int) = 2 ^ (8 * l) := by push_cast; ring
    refine ⟨{ s with readCalls := s.readCalls + 1 }, ?_, rfl, rfl⟩
    simp only [WField.toRead, RField.run, WField.value]
    rw [readUIntBE_ok s pos l hfail hl1 hl6 hbnd]
    rw [hslice, decUIntBE_bytesBE _ _ (by omega), hlen]
    simp [Except.map, Int.toNat_of_nonneg hv0]
  | uintLE v l =>
    simp only [WField.enc] at henc
    obtain ⟨hl1, hl6, hv0, hvlt, hbs⟩ := encUIntLE_ok henc
    subst hbs
    have hlen : (bytesLE v.toNat l).length = l := length_bytesLE _ _
    rw [hlen] at hslice hbound
    have hbnd : pos + l ≤ s.mem.length := by omega
    have hc : ((2 ^ (8 * l) : Nat) : Int) = 2 ^ (8 * l) := by push_cast; ring
    refine ⟨{ s with readCalls := s.readCalls + 1 }, ?_, rfl, rfl⟩
    simp only [WField.toRead, RField.run, WField.value]
    rw [readUIntLE_ok s pos l hfail hl1 hl6 hbnd]
    rw [hslice, decUIntLE_bytesLE _ _ (by omega), hlen]
    simp [Except.map, Int.toNat_of_nonneg hv0]
  | intBE v l =>
    simp only [WField.enc] at henc
    obtain ⟨hl1, hl6, hlo, hhi, hbs⟩ := encIntBE_ok henc
    subst hbs
    have hlen : (bytesBE (v % 2 ^ (8 * l)).toNat l).length = l := length_bytesBE _ _
    rw [hlen] at hslice hbound
    have hbnd : pos + l ≤ s.mem.length := by omega
    refine ⟨{ s with readCalls := s.readCalls + 1 }, ?_, rfl, rfl⟩
    simp only [WField.toRead, RField.run, WField.value]
    rw [readIntBE_ok s pos l hfail hl1 hl6 hbnd]
    rw [hslice, decUIntBE_bytesBE _ _ (emod_toNat_lt v l),
      toSigned_emod v l hl1 hlo hhi, hlen]
    rfl
  | intLE v l =>
    simp only [WField.enc] at henc
    obtain ⟨hl1, hl6, hlo, hhi, hbs⟩ := encIntLE_ok henc
    subst hbs
    have hlen : (bytesLE (v % 2 ^ (8 * l)).toNat l).length = l := length_bytesLE _ _
    rw [hlen] at hslice hbound
    have hbnd : pos + l ≤ s.mem.length := by omega
    refine ⟨{ s with readCalls := s.readCalls + 1 }, ?_, rfl, rfl⟩
    simp only [WField.toRead, RField.run, WField.value]
    rw [readIntLE_ok s pos l hfail hl1 hl6 hbnd]
    rw [hslice, decUIntLE_bytesLE _ _ (emod_toNat_lt v l),
      toSigned_emod v l hl1 hlo hhi, hlen]
    rfl
  | stringLenBE str ls =>
    simp only [WField.enc] at henc
    cases he : encUIntBE ((encodeString str).length : Int) ls with
    | error e => rw [he] at henc; exact Except.noConfusion henc
    | ok lenbuf =>
      rw [he] at henc
      dsimp only [Except.map] at henc
      injection henc with henc
      subst henc
      obtain ⟨hl1, hl6, _, hvlt, hlb⟩ := encUIntBE_ok he
      have hlblen : lenbuf.length = ls := by rw [hlb]; exact length_bytesBE _ _
      have hc : ((2 ^ (8 * ls) : Nat) : Int) = 2 ^ (8 * ls) := by push_cast; ring
      have hmlt : (encodeString str).length < 2 ^ (8 * ls) := by omega
      rw [List.length_append] at hslice hbound
      obtain ⟨hsl1, hsl2⟩ := slice_split s.mem pos lenbuf (encodeString str) hslice
      rw [hlblen] at hsl1 hsl2 hbound
      have hbnd1 : pos + ls ≤ s.mem.length := by omega
      have hbnd2 : (encodeString str).length = 0 ∨
          pos + ls + (encodeString str).length ≤ s.mem.length := by omega
      refine ⟨{ s with readCalls := s.readCalls + 1 + 1 }, ?_, rfl, rfl⟩
      simp only [WField.toRead, RField.run, WField.value, File.readStringLenBE]
      rw [readUIntBE_ok s pos ls hfail hl1 hl6 hbnd1]
      rw [exceptOkBind]
      dsimp only
      rw [hsl1, hlb, decUIntBE_bytesBE _ _ (by omega), Int.toNat_natCast]
      have hrs := readString_ok { s with readCalls := s.readCalls + 1 } (pos + ls)
        (encodeString str).length hfail (by dsimp only; exact hbnd2)
      rw [hrs]
      dsimp only
      rw [hsl2, decodeString_encodeString]
      rw [exceptOkBind]
      simp [Except.map, pure, Except.pure, List.length_append, hlblen, length_bytesBE,
        length_bytesLE]
  | stringLenLE str ls =>
    simp only [WField.enc] at henc
    cases he : encUIntLE ((encodeString str).length : Int) ls with
    | error e => rw [he] at henc; exact Except.noConfusion henc
    | ok lenbuf =>
      rw [he] at henc
      dsimp only [Except.map] at henc
      injection henc with henc
      subst henc
      obtain ⟨hl1, hl6, _, hvlt, hlb⟩ := encUIntLE_ok he
      have hlblen : lenbuf.length = ls := by rw [hlb]; exact length_bytesLE _ _
      have hc : ((2 ^ (8 * ls) : Nat) : Int) = 2 ^ (8 * ls) := by push_cast; ring
      have hmlt : (encodeString str).length < 2 ^ (8 * ls) := by omega
      rw [List.length_append] at hslice hbound
      obtain ⟨hsl1, hsl2⟩ := slice_split s.mem pos lenbuf (encodeString str) hslice
      rw [hlblen] at hsl1 hsl2 hbound
      have hbnd1 : pos + ls ≤ s.mem.length := by omega
      have hbnd2 : (encodeString str).length = 0 ∨
          pos + ls + (encodeString str).length ≤ s.mem.length := by omega
      refine ⟨{ s with readCalls := s.readCalls + 1 + 1 }, ?_, rfl, rfl⟩
      simp only [WField.toRead, RField.run, WField.value, File.readStringLenLE]
      rw [readUIntLE_ok s pos ls hfail hl1 hl6 hbnd1]
      rw [exceptOkBind]
      dsimp only
      rw [hsl1, hlb, decUIntLE_bytesLE _ _ (by omega), Int.toNat_natCast]
      have hrs := readString_ok { s with readCalls := s.readCalls + 1 } (pos + ls)
        (encodeString str).length hfail (by dsimp only; exact hbnd2)
      rw [hrs]
      dsimp only
      rw [hsl2, decodeString_encodeString]
      rw [exceptOkBind]
      simp [Except.map, pure, Except.pure, List.length_append, hlblen, length_bytesBE,
        length_bytesLE]
  | bufferLenBE d ls =>
    simp only [WField.noBufLen] at hnb
  | bufferLenLE d ls =>
    simp only [WField.noBufLen] at hnb

theorem setKey_fresh (m : List (String × Value)) (n : String) (v : Value)
    (h : (m.any fun p => p.1 = n) = false) : setKey m n v = m ++ [(n, v)] := by
  unfold setKey
  rw [h]
  simp

/-- Reading back a write struct's encodings field by field: the matching
read struct decodes every original value in order, consuming the whole
encoded region. -/
theorem read_all (fs : List WField) : ∀ (names : List String) (s : Store) (pos : Nat)
    (acc : List (String × Value)),
    names.length = fs.length → names.Nodup →
    (∀ n ∈ names, (acc.any fun p => p.1 = n) = false) →
    (∀ f ∈ fs, f.EncOk) → (∀ f ∈ fs, f.noBufLen) →
    s.failReadOn = [] →
    (s.mem.drop pos).take (flatEnc fs).length = flatEnc fs →
    ((flatEnc fs).length = 0 ∨ pos + (flatEnc fs).length ≤ s.mem.length) →
    ∃ s2, Read.read (List.zipWith WField.toRead fs names) s pos acc =
      .cb (acc ++ names.zip (fs.map WField.value)) (pos + (flatEnc fs).length) s2 ∧
      s2.mem = s.mem ∧ s2.failReadOn = s.failReadOn := by
  induction fs with
  | nil =>
    intro names s pos acc hlen _ _ _ _ _ _ _
    have hnames : names = [] := List.length_eq_zero.mp (by simpa using hlen)
    subst hnames
    exact ⟨s, by simp [Read.read, flatEnc, encList], rfl, rfl⟩
  | cons f fs ih =>
    intro names s pos acc hlen hnodup hfresh hok hnb hfail hslice hbound
    cases names with
    | nil => simp at hlen
    | cons n ns =>
      obtain ⟨hn, hns⟩ := List.nodup_cons.mp hnodup
      obtain ⟨bs, hbs⟩ := encOk_exists (hok f (by simp))
      rw [flatEnc_cons hbs, List.length_append] at hslice hbound
      obtain ⟨hsl1, hsl2⟩ := slice_split s.mem pos bs (flatEnc fs) hslice
      have hb1 : bs.length = 0 ∨ pos + bs.length ≤ s.mem.length := by omega
      obtain ⟨s1, hrun, hmem1, hfail1⟩ := toRead_run_ok f n bs s pos hbs (hnb f (by simp))
        hfail hsl1 hb1
      have hset : setKey acc n f.value = acc ++ [(n, f.value)] :=
        setKey_fresh acc n _ (hfresh n (by simp))
      have hfresh' : ∀ m ∈ ns, (((acc ++ [(n, f.value)]).any fun p => p.1 = m) = false) := by
        intro m hm
        rw [List.any_append]
        have h1 : (acc.any fun p => p.1 = m) = false := hfresh m (by simp [hm])
        have h2 : n ≠ m := fun e => hn (e ▸ hm)
        simp [h1, h2]
      obtain ⟨s2, hread, hmem2, hfail2⟩ := ih ns s1 (pos + bs.length) (acc ++ [(n, f.value)])
        (by simpa using hlen) hns hfresh'
        (fun g hg => hok g (by simp [hg])) (fun g hg => hnb g (by simp [hg]))
        (by rw [hfail1, hfail])
        (by rw [hmem1]; exact hsl2)
        (by rw [hmem1]; omega)
      refine ⟨s2, ?_, by rw [hmem2, hmem1], by rw [hfail2, hfail1]⟩
      simp only [List.zipWith_cons_cons, Read.read, hrun]
      rw [hset, hread]
      simp only [ROutcome.cb.injEq]
      refine ⟨?_, ?_, trivial⟩
      · rw [List.map_cons, List.zip_cons_cons]
        simp [List.append_assoc]
      · rw [flatEnc_cons hbs, List.length_append]
        omega

theorem readAt_ok_inv {s : Store} {pos len : Nat} {s1 : Store} {data : List Nat} {br : Nat}
    (h : s.readAt pos len = .ok (s1, data, br)) :
    br = len ∧ s1.mem = s.mem ∧ data = (s.mem.drop pos).take len := by
  unfold Store.readAt at h
  split at h
  · exact Except.noConfusion h
  · split at h
    · injection h with h1
      injection h1 with h2 h3
      injection h3 with h4 h5
      exact ⟨h5.symm, by rw [← h2], h4.symm⟩
    · exact Except.noConfusion h

theorem readString_ok_inv {s : Store} {pos len : Nat} {s1 : Store} {str : String} {br : Nat}
    (h : File.readString s pos len = .ok (s1, str, br)) :
    br = len ∧ s1.mem = s.mem := by
  unfold File.readString at h
  cases hr : File.read s pos len with
  | error e => rw [hr] at h; exact Except.noConfusion h
  | ok t =>
    obtain ⟨s2, data, br2⟩ := t
    rw [hr] at h
    rw [exceptOkBind] at h
    dsimp only [pure, Except.pure] at h
    injection h with h1
    injection h1 with h2 h3
    injection h3 with h4 h5
    obtain ⟨hb, hm, -⟩ := readAt_ok_inv hr
    exact ⟨h5 ▸ hb, h2 ▸ hm⟩

theorem readUIntBE_ok_inv {s : Store} {pos len : Nat} {s1 : Store} {v br : Nat}
    (h : File.readUIntBE s pos len = .ok (s1, v, br)) :
    br = len ∧ s1.mem = s.mem ∧ v = decUIntBE ((s.mem.drop pos).take len) := by
  unfold File.readUIntBE at h
  cases hr : File.read s pos len with
  | error e => rw [hr] at h; exact Except.noConfusion h
  | ok t =>
    obtain ⟨s2, data, br2⟩ := t
    rw [hr] at h
    rw [exceptOkBind] at h
    dsimp only at h
    unfold bufReadUIntBE at h
    split at h
    · rename_i hcond
      rw [exceptOkBind] at h
      dsimp only [pure, Except.pure] at h
      injection h with h1
      injection h1 with h2 h3
      injection h3 with h4 h5
      obtain ⟨hb, hm, hd⟩ := readAt_ok_inv hr
      have hdlen : data.length ≤ len := by
        rw [hd]
        simp [List.length_take]
      refine ⟨h5 ▸ hb, h2 ▸ hm, ?_⟩
      rw [← h4, hd, List.take_of_length_le (by rw [hd] at hdlen; exact hdlen)]
    · exact Except.noConfusion h

theorem readUIntLE_ok_inv {s : Store} {pos len : Nat} {s1 : Store} {v br : Nat}
    (h : File.readUIntLE s pos len = .ok (s1, v, br)) :
    br = len ∧ s1.mem = s.mem ∧ v = decUIntLE ((s.mem.drop pos).take len) := by
  unfold File.readUIntLE at h
  cases hr : File.read s pos len with
  | error e => rw [hr] at h; exact Except.noConfusion h
  | ok t =>
    obtain ⟨s2, data, br2⟩ := t
    rw [hr] at h
    rw [exceptOkBind] at h
    dsimp only at h
    unfold bufReadUIntLE at h
    split at h
    · rename_i hcond
      rw [exceptOkBind] at h
      dsimp only [pure, Except.pure] at h
      injection h with h1
      injection h1 with h2 h3
      injection h3 with h4 h5
      obtain ⟨hb, hm, hd⟩ := readAt_ok_inv hr
      have hdlen : data.length ≤ len := by
        rw [hd]
        simp [List.length_take]
      refine ⟨h5 ▸ hb, h2 ▸ hm, ?_⟩
      rw [← h4, hd, List.take_of_length_le (by rw [hd] at hdlen; exact hdlen)]
    · exact Except.noConfusion h

theorem readIntBE_ok_inv {s : Store} {pos len : Nat} {s1 : Store} {v : Int} {br : Nat}
    (h : File.readIntBE s pos len = .ok (s1, v, br)) :
    br = len ∧ s1.mem = s.mem := by
  unfold File.readIntBE at h
  cases hr : File.read s pos len with
  | error e => rw [hr] at h; exact Except.noConfusion h
  | ok t =>
    obtain ⟨s2, data, br2⟩ := t
    rw [hr] at h
    rw [exceptOkBind] at h
    dsimp only at h
    unfold bufReadIntBE at h
    split at h
    · rw [exceptOkBind] at h
      dsimp only [pure, Except.pure] at h
      injection h with h1
      injection h1 with h2 h3
      injection h3 with h4 h5
      obtain ⟨hb, hm, -⟩ := readAt_ok_inv hr
      exact ⟨h5 ▸ hb, h2 ▸ hm⟩
    · exact Except.noConfusion h

theorem readIntLE_ok_inv {s : Store} {pos len : Nat} {s1 : Store} {v : Int} {br : Nat}
    (h : File.readIntLE s pos len = .ok (s1, v, br)) :
    br = len ∧ s1.mem = s.mem := by
  unfold File.readIntLE at h
  cases hr : File.read s pos len with
  | error e => rw [hr] at h; exact Except.noConfusion h
  | ok t =>
    obtain ⟨s2, data, br2⟩ := t
    rw [hr] at h
    rw [exceptOkBind] at h
    dsimp only at h
    unfold bufReadIntLE at h
    split at h
    · rw [exceptOkBind] at h
      dsimp only [pure, Except.pure] at h
      injection h with h1
      injection h1 with h2 h3
      injection h3 with h4 h5
      obtain ⟨hb, hm, -⟩ := readAt_ok_inv hr
      exact ⟨h5 ▸ hb, h2 ▸ hm⟩
    · exact Except.noConfusion h

/-- On success a read field consumes exactly `consumedAt` bytes and
leaves the file contents untouched. -/
theorem run_ok_consumed (f : RField) {s : Store} {pos : Nat} {s1 : Store} {n : String}
    {v : Value} {br : Nat} (h : f.run s pos = .ok (s1, n, v, br)) :
    br = f.consumedAt s.mem pos ∧ s1.mem = s.mem := by
  cases f with
  | buffer name len =>
    simp only [RField.run] at h
    cases hr : File.read s pos len with
    | error e => rw [hr] at h; exact Except.noConfusion h
    | ok t =>
      obtain ⟨s2, data, br2⟩ := t
      rw [hr] at h
      dsimp only [Except.map] at h
      injection h with h1
      injection h1 with h2 h3
      injection h3 with h4 h5
      injection h5 with h6 h7
      obtain ⟨hb, hm, -⟩ := readAt_ok_inv hr
      exact ⟨h7 ▸ hb, h2 ▸ hm⟩
  | string name len =>
    simp only [RField.run] at h
    cases hr : File.readString s pos len with
    | error e => rw [hr] at h; exact Except.noConfusion h
    | ok t =>
      obtain ⟨s2, str, br2⟩ := t
      rw [hr] at h
      dsimp only [Except.map] at h
      injection h with h1
      injection h1 with h2 h3
      injection h3 with h4 h5
      injection h5 with h6 h7
      obtain ⟨hb, hm⟩ := readString_ok_inv hr
      exact ⟨h7 ▸ hb, h2 ▸ hm⟩
  | uintBE name len =>
    simp only [RField.run] at h
    cases hr : File.readUIntBE s pos len with
    | error e => rw [hr] at h; exact Except.noConfusion h
    | ok t =>
      obtain ⟨s2, v2, br2⟩ := t
      rw [hr] at h
      dsimp only [Except.map] at h
      injection h with h1
      injection h1 with h2 h3
      injection h3 with h4 h5
      injection h5 with h6 h7
      obtain ⟨hb, hm, -⟩ := readUIntBE_ok_inv hr
      exact ⟨h7 ▸ hb, h2 ▸ hm⟩
  | uintLE name len =>
    simp only [RField.run] at h
    cases hr : File.readUIntLE s pos len with
    | error e => rw [hr] at h; exact Except.noConfusion h
    | ok t =>
      obtain ⟨s2, v2, br2⟩ := t
      rw [hr] at h
      dsimp only [Except.map] at h
      injection h with h1
      injection h1 with h2 h3
      injection h3 with h4 h5
      injection h5 with h6 h7
      obtain ⟨hb, hm, -⟩ := readUIntLE_ok_inv hr
      exact ⟨h7 ▸ hb, h2 ▸ hm⟩
  | intBE name len =>
    simp only [RField.run] at h
    cases hr : File.readIntBE s pos len with
    | error e => rw [hr] at h; exact Except.noConfusion h
    | ok t =>
      obtain ⟨s2, v2, br2⟩ := t
      rw [hr] at h
      dsimp only [Except.map] at h
      injection h with h1
      injection h1 with h2 h3
      injection h3 with h4 h5
      injection h5 with h6 h7
      obtain ⟨hb, hm⟩ := readIntBE_ok_inv hr
      exact ⟨h7 ▸ hb, h2 ▸ hm⟩
  | intLE name len =>
    simp only [RField.run] at h
    cases hr : File.readIntLE s pos len with
    | error e => rw [hr] at h; exact Except.noConfusion h
    | ok t =>
      obtain ⟨s2, v2, br2⟩ := t
      rw [hr] at h
      dsimp only [Except.map] at h
      injection h with h1
      injection h1 with h2 h3
      injection h3 with h4 h5
      injection h5 with h6 h7
      obtain ⟨hb, hm⟩ := readIntLE_ok_inv hr
      exact ⟨h7 ▸ hb, h2 ▸ hm⟩
  | stringLenBE name ls =>
    simp only [RField.run, File.readStringLenBE] at h
    cases hr : File.readUIntBE s pos ls with
    | error e => rw [hr] at h; exact Except.noConfusion h
    | ok t =>
      obtain ⟨s2, declen, lenBR⟩ := t
      rw [hr] at h
      rw [exceptOkBind] at h
      dsimp only at h
      cases hr2 : File.readString s2 (pos + lenBR) declen with
      | error e => rw [hr2] at h; exact Except.noConfusion h
      | ok t2 =>
        obtain ⟨s3, str, strBR⟩ := t2
        rw [hr2] at h
        rw [exceptOkBind] at h
        dsimp only [Except.map, pure, Except.pure] at h
        injection h with h1
        injection h1 with h2 h3
        injection h3 with h4 h5
        injection h5 with h6 h7
        obtain ⟨hb1, hm1, hv1⟩ := readUIntBE_ok_inv hr
        obtain ⟨hb2, hm2⟩ := readString_ok_inv hr2
        constructor
        · rw [← h7, hb1, hb2, hv1]
          simp only [RField.consumedAt]
        · rw [← h2, hm2, hm1]
  | stringLenLE name ls =>
    simp only [RField.run, File.readStringLenLE] at h
    cases hr : File.readUIntLE s pos ls with
    | error e => rw [hr] at h; exact Except.noConfusion h
    | ok t =>
      obtain ⟨s2, declen, lenBR⟩ := t
      rw [hr] at h
      rw [exceptOkBind] at h
      dsimp only at h
      cases hr2 : File.readString s2 (pos + lenBR) declen with
      | error e => rw [hr2] at h; exact Except.noConfusion h
      | ok t2 =>
        obtain ⟨s3, str, strBR⟩ := t2
        rw [hr2] at h
        rw [exceptOkBind] at h
        dsimp only [Except.map, pure, Except.pure] at h
        injection h with h1
        injection h1 with h2 h3
        injection h3 with h4 h5
        injection h5 with h6 h7
        obtain ⟨hb1, hm1, hv1⟩ := readUIntLE_ok_inv hr
        obtain ⟨hb2, hm2⟩ := readString_ok_inv hr2
        constructor
        · rw [← h7, hb1, hb2, hv1]
          simp only [RField.consumedAt]
        · rw [← h2, hm2, hm1]
  | bufferLenBE name ls =>
    simp only [RField.run, File.readBufferLenBE] at h
    cases hr : File.readUIntBE s pos ls with
    | error e => rw [hr] at h; exact Except.noConfusion h
    | ok t =>
      obtain ⟨s2, declen, lenBR⟩ := t
      rw [hr] at h
      rw [exceptOkBind] at h
      dsimp only at h
      cases hr2 : File.read s2 (pos + lenBR) declen with
      | error e => rw [hr2] at h; exact Except.noConfusion h
      | ok t2 =>
        rw [hr2] at h
        rw [exceptOkBind] at h
        exact Except.noConfusion h
  | bufferLenLE name ls =>
    simp only [RField.run, File.readBufferLenLE] at h
    cases hr : File.readUIntLE s pos ls with
    | error e => rw [hr] at h; exact Except.noConfusion h
    | ok t =>
      obtain ⟨s2, declen, lenBR⟩ := t
      rw [hr] at h
      rw [exceptOkBind] at h
      dsimp only at h
      cases hr2 : File.read s2 (pos + lenBR) declen with
      | error e => rw [hr2] at h; exact Except.noConfusion h
      | ok t2 =>
        rw [hr2] at h
        rw [exceptOkBind] at h
        exact Except.noConfusion h

theorem read_append (xs ys : List RField) : ∀ (s : Store) (P : Nat)
    (acc : List (String × Value)),
    Read.read (xs ++ ys) s P acc =
      match Read.read xs s P acc with
      | .cb res p1 s1 => Read.read ys s1 p1 res
      | .thrown e res p1 s1 => .thrown e res p1 s1 := by
  induction xs with
  | nil =>
    intro s P acc
    simp [Read.read]
  | cons f xs ih =>
    intro s P acc
    simp only [List.cons_append, Read.read]
    cases h : RField.run f s P with
    | error e => rfl
    | ok r =>
      obtain ⟨s1, n, v, br⟩ := r
      dsimp only
      exact ih s1 (P + br) (setKey acc n v)

theorem read_cb_position (fields : List RField) : ∀ (s : Store) (P : Nat)
    (acc res : List (String × Value)) (p1 : Nat) (s1 : Store),
    Read.read fields s P acc = .cb res p1 s1 →
    p1 = P + (consumedList fields s.mem P).sum := by
  induction fields with
  | nil =>
    intro s P acc res p1 s1 h
    simp only [Read.read, ROutcome.cb.injEq] at h
    simp only [consumedList, List.sum_nil]
    omega
  | cons f fields ih =>
    intro s P acc res p1 s1 h
    simp only [Read.read] at h
    cases h2 : RField.run f s P with
    | error e =>
      rw [h2] at h
      exact ROutcome.noConfusion h
    | ok r =>
      obtain ⟨s2, n, v, br⟩ := r
      rw [h2] at h
      dsimp only at h
      obtain ⟨hbr, hmem⟩ := run_ok_consumed f h2
      have hrec := ih _ _ _ _ _ _ h
      rw [hmem, hbr] at hrec
      simp only [consumedList, List.sum_cons]
      omega

/-! ### Auxiliary facts tying the write phase to the read phase -/

theorem writeBytes_readback (mem : List Nat) (P : Nat) (d : List Nat) :
    ((writeBytes mem P d).drop P).take d.length = d := by
  rcases eq_or_ne d [] with h | h
  · subst h
    simp
  · rw [drop_writeBytes mem P d h]
    exact List.take_left d _

theorem writeBytes_length_ge (mem : List Nat) (P : Nat) (d : List Nat) :
    d.length = 0 ∨ P + d.length ≤ (writeBytes mem P d).length := by
  rcases eq_or_ne d [] with h | h
  · subst h
    simp
  · right
    rw [writeBytes_length mem P d h]
    omega

theorem sum_sizeD_eq_flatEnc_length (fs : List WField) (h : ∀ f ∈ fs, f.EncOk) :
    (fs.map WField.sizeD).sum = (flatEnc fs).length := by
  induction fs with
  | nil => rfl
  | cons f fs ih =>
    obtain ⟨bs, hbs⟩ := encOk_exists (h f (by simp))
    rw [flatEnc_cons hbs, List.length_append, List.map_cons, List.sum_cons, sizeD_eq hbs,
      ih (fun g hg => h g (by simp [hg]))]

/-! ### Demonstration structs (the README / spec end-to-end scenario) -/

/-- The README write struct: `uintLE(123,1)`, `uintBE(321,2)`,
`string("Hello")`, `stringLenBE("Hello World!", 2)`. -/
def demoWrite : List WField :=
  [.uintLE 123 1, .uintBE 321 2, .string "Hello", .stringLenBE "Hello World!" 2]

/-- The matching README read struct field names. -/
def demoNames : List String := ["code", "op", "title", "content"]

/-- The matching README read struct. -/
def demoRead : List RField :=
  [.uintLE "code" 1, .uintBE "op" 2, .string "title" 5, .stringLenBE "content" 2]

/-- The 22 bytes the README write struct produces at offset 0. -/
def demoMem : List Nat :=
  [123, 1, 65, 72, 101, 108, 108, 111, 0, 12, 72, 101, 108, 108, 111, 32, 87, 111, 114, 108,
    100, 33]

/-- Store state after executing the README write struct on an empty file. -/
def demoStore1 : Store := ⟨demoMem, 4, [], 0, []⟩

/-- Store state after executing the README read struct on `demoStore1`. -/
def demoStore2 : Store := ⟨demoMem, 4, [], 5, []⟩

/-- Result mapping decoded by the README read struct. -/
def demoResult : List (String × Value) :=
  [("code", .int 123), ("op", .int 321), ("title", .str "Hello"),
    ("content", .str "Hello World!")]

/-! ### The claims -/

/-- C1 (counterexample to the claim as stated): the round trip fails for
length-prefixed buffer fields.  Writing `bufferLenBE([7], 1)` at offset 0
succeeds and stores the bytes `[1, 7]`, but reading the same kind/width
back (`bufferLenBE(name, 1)`) does not yield the original value: the read
aborts with the strict-mode `ReferenceError` from the undeclared `str` in
`readBufferLenBE`, so no value is delivered. -/
theorem c1_counterexample :
    Write.write [WField.bufferLenBE [7] 1] (Store.clean []) 0 =
      .cb 2 ⟨[1, 7], 1, [], 0, []⟩ ∧
    Read.read [RField.bufferLenBE "x" 1] ⟨[1, 7], 1, [], 0, []⟩ 0 [] =
      .thrown .refError [] 0 ⟨[1, 7], 1, [], 0, []⟩ := by
  exact ⟨by decide, by decide⟩

/-- C1 (amended): for every sequence of field descriptors with concrete
values drawn from the kinds whose read side is functional — raw buffers,
strings, fixed-width signed/unsigned integers within their declared
width, and length-prefixed strings (length-prefixed buffers excluded:
their read side crashes on the source's undeclared-variable defect) —
executing the write struct at offset `P` and then the matching read
struct (same kinds and widths, distinct field names) at offset `P` over
the same byte store succeeds and yields exactly the original values for
every field, both structs ending at `P` plus the total encoded size. -/
theorem c1_roundtrip (wfs : List WField) (names : List String) (mem : List Nat) (P : Nat)
    (hlen : names.length = wfs.length) (hnodup : names.Nodup)
    (hvalid : ∀ f ∈ wfs, f.EncOk) (hnobuf : ∀ f ∈ wfs, f.noBufLen) :
    ∃ s1 s2,
      Write.write wfs (Store.clean mem) P = .cb (P + (wfs.map WField.sizeD).sum) s1 ∧
      Read.read (List.zipWith WField.toRead wfs names) s1 P [] =
        .cb (names.zip (wfs.map WField.value)) (P + (wfs.map WField.sizeD).sum) s2 := by
  have htot := sum_sizeD_eq_flatEnc_length wfs hvalid
  have hw := write_all wfs (Store.clean mem) P hvalid rfl
  obtain ⟨s2, hr, -, -⟩ := read_all wfs names
    { Store.clean mem with
      mem := writeBytes (Store.clean mem).mem P (flatEnc wfs),
      writeCalls := (Store.clean mem).writeCalls + wfs.length } P []
    hlen hnodup (fun n _ => rfl) hvalid hnobuf rfl
    (writeBytes_readback (Store.clean mem).mem P (flatEnc wfs))
    (writeBytes_length_ge (Store.clean mem).mem P (flatEnc wfs))
  exact ⟨_, s2, hw, by simpa [← htot] using hr⟩

/-- C1 witness: the amended round trip at the README struct. -/
theorem c1_roundtrip_witness :
    (demoNames.length = demoWrite.length ∧ demoNames.Nodup ∧
      (∀ f ∈ demoWrite, f.EncOk) ∧ (∀ f ∈ demoWrite, f.noBufLen)) ∧
    ∃ s1 s2,
      Write.write demoWrite (Store.clean []) 0 =
        .cb (0 + (demoWrite.map WField.sizeD).sum) s1 ∧
      Read.read (List.zipWith WField.toRead demoWrite demoNames) s1 0 [] =
        .cb (demoNames.zip (demoWrite.map WField.value))
          (0 + (demoWrite.map WField.sizeD).sum) s2 :=
  ⟨⟨by decide, by decide, by decide, by decide⟩,
    c1_roundtrip demoWrite demoNames [] 0 (by decide) (by decide) (by decide) (by decide)⟩

/-- C2: the claim says a failing store operation makes the executor
invoke the user callback exactly once with the error and never deliver
the error by another channel.  The code contradicts this: `makeCallback`
rethrows every error (`if (err) throw err`) at the innermost wrapper, so
the struct executor's `if (err) return cb(err)` branch is unreachable —
a 2-field write struct whose first positional write fails aborts the
remaining queue as a thrown exception and the user callback is never
invoked (`thrown`, not `cb`); the store is untouched. -/
theorem c2_error_thrown_not_callback :
    Write.write [WField.buffer [1], WField.buffer [2]] ⟨[], 0, [0], 0, []⟩ 0 =
      .thrown .ioError 0 ⟨[], 0, [0], 0, []⟩ := by
  decide

/-- C3: offset accumulation.  (1) Executing `xs ++ ys` runs `xs` first
and, when they all succeed, continues `ys` at the cursor `xs` reached —
so the field at index `n` is issued at the cursor reached after fields
`0..n-1`; (2) a successful write struct's reported final offset is the
start plus the sum of the fields' encoded sizes (for a length-prefixed
field: prefix width plus payload length); (3)/(4) the same for read
structs, where a field's consumed count is its fixed width, or the
prefix width plus the value decoded from the prefix bytes. -/
theorem c3_offset_accumulation :
    (∀ (xs ys : List WField) (s : Store) (P : Nat),
      Write.write (xs ++ ys) s P =
        match Write.write xs s P with
        | .cb p1 s1 => Write.write ys s1 p1
        | .thrown e p1 s1 => .thrown e p1 s1) ∧
    (∀ (fs : List WField) (s : Store) (P p1 : Nat) (s1 : Store),
      Write.write fs s P = .cb p1 s1 → p1 = P + (fs.map WField.sizeD).sum) ∧
    (∀ (xs ys : List RField) (s : Store) (P : Nat) (acc : List (String × Value)),
      Read.read (xs ++ ys) s P acc =
        match Read.read xs s P acc with
        | .cb res p1 s1 => Read.read ys s1 p1 res
        | .thrown e res p1 s1 => .thrown e res p1 s1) ∧
    (∀ (fs : List RField) (s : Store) (P : Nat) (acc res : List (String × Value))
      (p1 : Nat) (s1 : Store),
      Read.read fs s P acc = .cb res p1 s1 → p1 = P + (consumedList fs s.mem P).sum) :=
  ⟨fun xs ys s P => write_append xs ys s P,
   fun fs s P p1 s1 h => write_cb_position fs s P p1 s1 h,
   fun xs ys s P acc => read_append xs ys s P acc,
   fun fs s P acc res p1 s1 h => read_cb_position fs s P acc res p1 s1 h⟩

/-- C3 witness: the README struct mixing fixed-width and length-prefixed
fields ends at offset 22 = 1 + 2 + 5 + (2 + 12) on both sides. -/
theorem c3_offset_accumulation_witness :
    (Write.write demoWrite (Store.clean []) 0 = .cb 22 demoStore1 ∧
      22 = 0 + (demoWrite.map WField.sizeD).sum) ∧
    (Read.read demoRead demoStore1 0 [] = .cb demoResult 22 demoStore2 ∧
      22 = 0 + (consumedList demoRead demoStore1.mem 0).sum) :=
  ⟨⟨by decide,
    c3_offset_accumulation.2.1 demoWrite (Store.clean []) 0 22 demoStore1 (by decide)⟩,
   ⟨by decide,
    c3_offset_accumulation.2.2.2 demoRead demoStore1 0 [] demoResult 22 demoStore2
      (by decide)⟩⟩

/-- C4: partial-failure isolation for write structs.  If every field
before index `k = xs.length` encodes successfully and the `k`-th field's
positional write is the one that fails, execution aborts immediately
with a thrown error; the store then holds exactly the bytes of the
successful fields (`writeBytes mem P (flatEnc xs)`, later fields and the
failing field not applied), and the cursor at failure is the start
offset plus exactly the bytes written by the successful fields — no
offset advance for the failing field. -/
theorem c4_partial_failure (xs : List WField) (f : WField) (ys : List WField)
    (mem : List Nat) (P : Nat) (bs : List Nat)
    (hok : ∀ g ∈ xs, g.EncOk) (hf : f.enc = .ok bs) :
    Write.write (xs ++ f :: ys) ⟨mem, 0, [xs.length], 0, []⟩ P =
      .thrown .ioError (P + (xs.map WField.sizeD).sum)
        ⟨writeBytes mem P (flatEnc xs), xs.length, [xs.length], 0, []⟩ := by
  have h := write_fail xs f ys ⟨mem, 0, [xs.length], 0, []⟩ P bs hok hf (by simp)
  simpa using h

/-- C4 witness: a 3-field write struct whose second positional write
fails stops with cursor 1 (only the first field's byte durable). -/
theorem c4_partial_failure_witness :
    ((∀ g ∈ [WField.buffer [5]], g.EncOk) ∧ (WField.buffer [6]).enc = .ok [6]) ∧
    Write.write [WField.buffer [5], WField.buffer [6], WField.buffer [9]]
        ⟨[], 0, [1], 0, []⟩ 0 =
      .thrown .ioError (0 + ([WField.buffer [5]].map WField.sizeD).sum)
        ⟨writeBytes [] 0 (flatEnc [WField.buffer [5]]), 1, [1], 0, []⟩ :=
  ⟨⟨by decide, rfl⟩,
    c4_partial_failure [WField.buffer [5]] (WField.buffer [6]) [WField.buffer [9]] [] 0 [6]
      (by decide) rfl⟩

/-- C5: executing a write-struct `uint(-1, 1)` or `uint(256, 1)` field
(in either endianness variant) fails with a `RangeError` raised by the
buffer encoder before any I/O is issued for that field: the outcome is a
thrown `RangeError` and the store is returned untouched — in particular
`writeCalls` is still 0, so no positional write was ever made. -/
theorem c5_uint_range_failfast :
    Write.write [WField.uintBE (-1) 1] (Store.clean []) 0 =
        .thrown .rangeError 0 (Store.clean []) ∧
    Write.write [WField.uintBE 256 1] (Store.clean []) 0 =
        .thrown .rangeError 0 (Store.clean []) ∧
    Write.write [WField.uintLE (-1) 1] (Store.clean []) 0 =
        .thrown .rangeError 0 (Store.clean []) ∧
    Write.write [WField.uintLE 256 1] (Store.clean []) 0 =
        .thrown .rangeError 0 (Store.clean []) := by
  exact ⟨by decide, by decide, by decide, by decide⟩

/-- C6: the claim (and the spec's stated intent) is that a
`bufferLenBE(name, w)` / `bufferLenLE(name, w)` read over a valid
length-prefixed region succeeds and stores the raw payload bytes under
`name`.  The code instead forwards the undeclared variable `str` after
both reads succeed, raising a strict-mode `ReferenceError`: over the
store `[0x00, 0x02, 9, 8]` (BE prefix 2, payload `[9, 8]`) the read
struct aborts with `refError` and stores nothing. -/
theorem c6_bufferlen_read_defect :
    Read.read [RField.bufferLenBE "x" 2] (Store.clean [0, 2, 9, 8]) 0 [] =
      .thrown .refError [] 0 (Store.clean [0, 2, 9, 8]) ∧
    Read.read [RField.bufferLenLE "x" 2] (Store.clean [2, 0, 9, 8]) 0 [] =
      .thrown .refError [] 0 (Store.clean [2, 0, 9, 8]) := by
  exact ⟨by decide, by decide⟩

/-- C7: writing `stringLenBE("Hello World!", 2)` emits exactly the bytes
`[0x00, 0x0C]` followed by the 12-byte UTF-8 encoding of
"Hello World!" (14 bytes total, final offset 14), and reading
`stringLenBE(name, 2)` at the same offset yields "Hello World!" under
`name` and consumes exactly 14 bytes. -/
theorem c7_stringlen_hello_world :
    WField.enc (.stringLenBE "Hello World!" 2) =
      .ok ([0x00, 0x0C] ++ [72, 101, 108, 108, 111, 32, 87, 111, 114, 108, 100, 33]) ∧
    Write.write [WField.stringLenBE "Hello World!" 2] (Store.clean []) 0 =
      .cb 14 ⟨[0, 12, 72, 101, 108, 108, 111, 32, 87, 111, 114, 108, 100, 33], 1, [], 0, []⟩ ∧
    Read.read [RField.stringLenBE "content" 2]
        ⟨[0, 12, 72, 101, 108, 108, 111, 32, 87, 111, 114, 108, 100, 33], 1, [], 0, []⟩ 0 [] =
      .cb [("content", .str "Hello World!")] 14
        ⟨[0, 12, 72, 101, 108, 108, 111, 32, 87, 111, 114, 108, 100, 33], 1, [], 2, []⟩ := by
  exact ⟨rfl, by decide, by decide⟩

/-- C8: endianness asymmetry — `uintBE(0x0102, 2)` writes the bytes
`[0x01, 0x02]` (most significant first), `uintLE(0x0102, 2)` writes
`[0x02, 0x01]` (least significant first). -/
theorem c8_endianness :
    Write.write [WField.uintBE 0x0102 2] (Store.clean []) 0 =
        .cb 2 ⟨[0x01, 0x02], 1, [], 0, []⟩ ∧
    Write.write [WField.uintLE 0x0102 2] (Store.clean []) 0 =
        .cb 2 ⟨[0x02, 0x01], 1, [], 0, []⟩ := by
  exact ⟨by decide, by decide⟩

/-- C9 (counterexample to the claim as stated): the `Write` constructor
in `lib/struct.js` stores the position argument as passed with no
`|| 0` default, so a write struct created directly without a starting
offset has an `undefined` cursor — not a cursor at offset 0. -/
theorem c9_counterexample : (Write.new none).position ≠ some 0 := by
  decide

/-- C9 (amended): read structs created without a starting offset do
default their cursor to 0 (`position || 0` in the `Read` constructor),
and both `File.createWriteStruct` / `File.createReadStruct` default the
cursor to 0 when no offset is given; executing such a struct starts
issuing I/O at offset 0.  Only the bare `Write` constructor leaves the
cursor undefined. -/
theorem c9_default_offsets :
    (Read.new none).position = 0 ∧
    (File.createWriteStruct none).position = some 0 ∧
    (File.createReadStruct none).position = 0 ∧
    (∀ (q : List RField) (s : Store),
      ReadStruct.exec ⟨(Read.new none).position, q⟩ s = Read.read q s 0 []) ∧
    (∀ (q : List WField) (s : Store),
      WriteStruct.exec ⟨(File.createWriteStruct none).position, q⟩ s =
        some (Write.write q s 0)) := by
  exact ⟨rfl, rfl, rfl, fun q s => rfl, fun q s => rfl⟩

/-- C10: executing a write struct or a read struct with an empty
descriptor queue performs no store I/O (the store is returned unchanged)
and reports success immediately: the write struct reports its starting
offset and the read struct reports an empty result mapping together
with its starting offset. -/
theorem c10_empty_struct (s : Store) (P : Nat) :
    Write.write [] s P = .cb P s ∧ Read.read [] s P [] = .cb [] P s :=
  ⟨rfl, rfl⟩

end BinFile
